import Mathlib

/-!
# A shallow embedding of the BSONColumn codec (`src/mongo/bson/bson_column.h`)

This file models, in Lean, the columnar codec implemented by `mongo::BSONColumn`:
the stream-instruction format (`BSONColumn::Instruction`), the delta store
(`BSONColumn::DeltaStore`), the forward iterator (`BSONColumn::iterator`), and the
deferred-emission builder (`BSONColumn::Builder`).  Each Lean definition is a direct
translation of the corresponding C++ member function; names follow the source.

Modelling conventions:
* Bytes are `Nat` (values 0..255); byte buffers are `List Nat`.
* `uint64_t` arithmetic is `Nat` with explicit `% 2 ^ 64`; the C++ conversions from
  `uint64_t` to 32-bit `int` (used for the iterator's `_count` and `_index`) are
  modelled by `toInt32`.
* A `BSONElement` as used by the codec is a type-tag byte, a conventionally empty
  field name byte, and a value payload whose length is determined by the type tag
  (the element format itself is outside the codec, which only uses the raw bytes,
  the type tag, the value slice and binary equality).  An element is the structure
  `BElem`; the end-of-object (EOO) element has type tag 0 and no payload.
  The payload length of a type tag is an explicit parameter `ts : Nat → Nat`
  wherever the decoder must re-read a literal element from the stream.
* C++ `invariant`/`tassert` failures and out-of-bounds reads are modelled by
  `Option.none`.
-/

set_option maxRecDepth 8000

namespace BsonColumn

/-- Conversion of a `uint64_t`-sized value to a 32-bit signed `int`
(two's complement), as performed by the implicit narrowing in
`_count = insn.countArg()` and `_index += insn.countArg()`. -/
def toInt32 (n : Nat) : Int :=
  if n % 2 ^ 32 < 2 ^ 31 then ((n % 2 ^ 32 : Nat) : Int)
  else ((n % 2 ^ 32 : Nat) : Int) - 2 ^ 32

/-- Conversion of a signed value to `uint64_t` (wraps modulo `2 ^ 64`). -/
def toU64 (i : Int) : Nat := (i % (2 ^ 64 : Int)).toNat

/-- Little-endian value of a byte list (as read by `memcpy` into an integer). -/
def leVal : List Nat → Nat
  | [] => 0
  | b :: r => b + 256 * leVal r

/-- The `n` low-order bytes of `v`, little-endian (as written by `memcpy`
from an integer). -/
def leBytesN : Nat → Nat → List Nat
  | 0, _ => []
  | n + 1, v => v % 256 :: leBytesN n (v / 256)

/-- `strlen` over a byte list: number of bytes before the first NUL. -/
def strlenL : List Nat → Nat
  | [] => 0
  | b :: r => if b = 0 then 0 else 1 + strlenL r

/-- Read a little-endian 4-byte signed `int` from the front of a byte list. -/
def readI32 (l : List Nat) : Int := toInt32 (leVal (l.take 4))

/-- A scalar BSON element as the codec sees it: type-tag byte and value payload.
The field name is the conventional empty name (a single NUL byte); the codec
ignores and never materialises non-empty names.  Type tag 0 is the EOO element
(no name byte, no payload). -/
structure BElem where
  btype : Nat
  payload : List Nat
deriving DecidableEq, Repr

/-- The end-of-object element (`BSONElement()` default). -/
def eooElem : BElem := ⟨0, []⟩

/-- `BSONElement::size()` for the codec's elements: 1 byte for EOO, otherwise
type byte + empty name byte + payload. -/
def elemSize (e : BElem) : Nat :=
  if e.btype = 0 then 1 else 2 + e.payload.length

/-- The raw bytes the builder's `_emitLiteral` writes for a non-EOO element:
type byte, empty-name NUL, value payload. -/
def litBytes (e : BElem) : List Nat := e.btype :: 0 :: e.payload

/-- `BSONElement::binaryEqualValues`: type tags and value bytes equal
(field names ignored). -/
def binEqVal (a b : BElem) : Prop := a.btype = b.btype ∧ a.payload = b.payload

instance (a b : BElem) : Decidable (binEqVal a b) := by unfold binEqVal; infer_instance

/-! ## The instruction format (`BSONColumn::Instruction`) -/

/-- A parsed stream instruction: the opcode byte `_op` and the accumulated
variable-length `_prefix` (a `uint64_t`). -/
structure Instr where
  op : Nat
  pfx : Nat
deriving DecidableEq, Repr

namespace Instr

/-- Instruction kinds, numerically: the high nibble of the opcode byte.
`Literal0 = 0, Literal1 = 1, Skip = 2, Delta = 3, Copy = 4,
SetNegDelta = 5, SetDelta = 6`. -/
def kind (i : Instr) : Nat := i.op / 16

/-- `Instruction::countArg()`: `_prefix * 16 + _op % 16` in `uint64_t`. -/
def countArg (i : Instr) : Nat := (i.pfx * 16 + i.op % 16) % 2 ^ 64

/-- `Instruction::deltaArg()`: `(_prefix + 1) << (_op % 16 * 4)` in `uint64_t`. -/
def deltaArg (i : Instr) : Nat := ((i.pfx + 1) * 16 ^ (i.op % 16)) % 2 ^ 64

/-- `Instruction::size()`: one byte for the opcode plus, when the opcode is
nonzero, one byte per base-128 digit of the prefix.  The C++ loop
`while (op && prefix) { ++size; prefix /= 128; }` divides the prefix until
it reaches zero; `sizeDigits` is that digit count (fuel-based; a `uint64_t`
prefix has at most 10 base-128 digits, so fuel 64 is never exhausted). -/
def sizeDigits : Nat → Nat → Nat
  | 0, _ => 0
  | fuel + 1, p => if p = 0 then 0 else 1 + sizeDigits fuel (p / 128)

/-- `Instruction::size()`. -/
def size (i : Instr) : Nat :=
  if i.op = 0 then 1 else 1 + sizeDigits 64 i.pfx

/-- The prefix bytes written by `Instruction::append`: the base-128 digits of
`_prefix`, most-significant first, each with the high bit set.  (The C++ loop
fills an 11-byte buffer backwards with `_prefix % 128 + 128` then divides.) -/
def prefixBytes : Nat → Nat → List Nat
  | 0, _ => []
  | fuel + 1, p => if p = 0 then [] else prefixBytes fuel (p / 128) ++ [p % 128 + 128]

/-- The full byte sequence written by `Instruction::append(BufBuilder&)`:
prefix bytes followed by the opcode byte. -/
def insnBytes (i : Instr) : List Nat := prefixBytes 64 i.pfx ++ [i.op]

/-- The `Instruction(Kind, uint64_t)` constructor for the counted kinds
`Skip` (2), `Delta` (3), `Copy` (4): `_prefix = arg / 16`,
`_op = kind * 16 + arg % 16`. -/
def mkCnt (kind arg : Nat) : Instr := ⟨kind * 16 + arg % 16, arg / 16⟩

/-- The constructor loop for `SetNegDelta` (5) / `SetDelta` (6):
`while (arg % 16 == 0 && _op % 16 < 15) { ++_op; arg /= 16; }`.
Returns the final `(arg, low nibble)`; fuel 15 bounds the loop exactly. -/
def setShift : Nat → Nat → Nat → Nat × Nat
  | 0, arg, lo => (arg, lo)
  | fuel + 1, arg, lo =>
    if arg % 16 = 0 ∧ lo < 15 then setShift fuel (arg / 16) (lo + 1) else (arg, lo)

/-- The `Instruction(Kind, uint64_t)` constructor for `SetNegDelta` (5) and
`SetDelta` (6); requires `arg ≠ 0` in the source (`invariant(arg)`). -/
def mkSet (kind arg : Nat) : Instr :=
  let s := setShift 15 arg 0
  ⟨kind * 16 + s.2, s.1 - 1⟩

/-- `uint64_t` negation `-delta`. -/
def negU64 (d : Nat) : Nat := (2 ^ 64 - d % 2 ^ 64) % 2 ^ 64

/-- `Instruction::makeDelta`: build both the `SetDelta delta` and the
`SetNegDelta (-delta)` candidates and return the one with smaller `size()`
(the positive form on ties). -/
def makeDelta (delta : Nat) : Instr :=
  let pos := mkSet 6 delta
  let neg := mkSet 5 (negU64 delta)
  if neg.size < pos.size then neg else pos

end Instr

/-- `Instruction::parse`: consume prefix bytes (high bit set), accumulating
`_prefix = _prefix * 128 + b % 128` in `uint64_t`, until the opcode byte
(high bit clear).  Returns the instruction and the remaining stream; `none`
models reading past the end of the buffer. -/
def parseInsn : List Nat → Nat → Option (Instr × List Nat)
  | [], _ => none
  | b :: rest, acc =>
    if 128 ≤ b then parseInsn rest ((acc * 128 + b % 128) % 2 ^ 64)
    else some (⟨b, acc⟩, rest)

/-! ## The delta store (`BSONColumn::DeltaStore`) -/

/-- One materialised cell of the delta store (`DeltaStore::Elem`): a
`maxElemSize = 10`-byte buffer holding the type byte, the empty name byte and
the full 8-byte little-endian sum `base + delta` (the store always copies the
entire 64-bit value). -/
abbrev Cell := List Nat

/-- The store contents: `std::deque<Elem> _store`. -/
abbrev Store := List Cell

/-- The 10-byte cell `DeltaStore::applyDelta` builds for `(base, delta)`:
bytes 0–1 copied from the base's raw data (type byte, empty name byte),
bytes 2–9 the little-endian `uint64_t` value `base.value + delta`.
The base's payload is zero-extended to 64 bits (the source `memcpy`s
`base.valuesize()` bytes into the 64-bit accumulator). -/
def matCell (base : BElem) (delta : Nat) : Cell :=
  base.btype :: 0 :: leBytesN 8 ((leVal base.payload % 2 ^ 64 + delta) % 2 ^ 64)

/-- The `BSONElement` view of a stored cell with value size `size`:
the cell's type byte and the first `size` value bytes. -/
def elemOfCell (c : Cell) (size : Nat) : BElem := ⟨c.headD 0, (c.drop 2).take size⟩

/-- `DeltaStore::applyDelta(deltaIndex, base, delta)`: materialise the
`deltaIndex`-th delta element.  Mirrors the source's order of checks:
`invariant(size <= maxValueSize)`; `invariant(deltaIndex <= _store.size())`;
push a new cell when `deltaIndex == _store.size()`;
`invariant(!memcmp(elem.data, _store[deltaIndex].data, sizeof(elem)))`;
return an element referencing the stored cell.  `none` models a failed
invariant. -/
def applyDelta (s : Store) (deltaIndex : Nat) (base : BElem) (delta : Nat) :
    Option (Store × BElem) :=
  let size := base.payload.length
  if 8 < size then none
  else
    let cell := matCell base delta
    if s.length < deltaIndex then none
    else
      let s' := if deltaIndex = s.length then s ++ [cell] else s
      match s'.get? deltaIndex with
      | none => none
      | some c => if c = cell then some (s', elemOfCell c size) else none

/-- `DeltaStore::calculateDelta(base, modified)`: `0` when the elements are not
delta-compatible (different types, different or zero payload sizes, or size
more than 8); otherwise the `uint64_t` difference
`modified.value - base.value` of the zero-extended little-endian payloads. -/
def calculateDelta (base modified : BElem) : Nat :=
  let size := base.payload.length
  if base.btype ≠ modified.btype ∨ size ≠ modified.payload.length ∨ 8 < size ∨ size = 0
  then 0
  else (2 ^ 64 + leVal modified.payload % 2 ^ 64 - leVal base.payload % 2 ^ 64) % 2 ^ 64

/-! ## The forward iterator (`BSONColumn::iterator`)

The iterator state mirrors the source's fields.  `insn` is the remaining byte
suffix of the column body at `_insn` (pointer positions and byte suffixes are
in bijection, so the source's pointer equality is suffix equality).  The shared
`DeltaStore` is threaded explicitly, and each `applyDelta` call is also recorded
as a `(deltaIndex, base, delta)` triple so that theorems can speak about the
materialisation sequence. -/

/-- The argument triple of one `DeltaStore::applyDelta` call. -/
abbrev Triple := Nat × BElem × Nat

/-- Iterator state (`BSONColumn::iterator` fields `_cur`, `_insn`, `_count`,
`_index`, `_deltaIndex`, `_delta`). -/
structure Iter where
  cur : BElem
  insn : List Nat
  count : Int
  index : Int
  deltaIndex : Nat
  delta : Nat
deriving DecidableEq, Repr

/-- Read one self-describing element from the front of a byte stream, given the
per-type payload size `ts`.  An initial 0 byte is the EOO element (1 byte, no
name, no payload); otherwise the element is type byte, NUL name byte (the
decoder's literal path asserts the name is empty), `ts btype` payload bytes.
`none` models a truncated stream or a non-empty name. -/
def readElem (ts : Nat → Nat) : List Nat → Option (BElem × List Nat)
  | [] => none
  | t :: rest =>
    if t = 0 then some (eooElem, rest)
    else
      match rest with
      | [] => none
      | n :: rest2 =>
        if n = 0 then
          if rest2.length < ts t then none
          else some (⟨t, rest2.take (ts t)⟩, rest2.drop (ts t))
        else none

/-- `BSONColumn::begin()`: an iterator whose `_cur` is the element at the start
of the column body and whose `_insn` points just past it; `_count = 0`,
`_index = 0`, `_deltaIndex = 0`, `_delta = 1` (the field initialisers). -/
def mkBegin (ts : Nat → Nat) (body : List Nat) : Option Iter :=
  match readElem ts body with
  | none => none
  | some (e, rest) => some ⟨e, rest, 0, 0, 0, 1⟩

/-- Whether an iterator equals `BSONColumn::end()`: iterator equality compares
`_insn` and `_count`, and `end()` has `_insn` one past the final byte (empty
suffix) with `_count = 0`. -/
def isEnd (it : Iter) : Bool := it.insn = [] && it.count = 0

/-- One `applyDelta` call made by the iterator: threads the store, records the
triple, advances `_deltaIndex` and replaces `_cur` with the returned element. -/
def applyStep (it : Iter) (s : Store) : Option (Iter × Store × Triple) :=
  match applyDelta s it.deltaIndex it.cur it.delta with
  | none => none
  | some (s', e) =>
    some ({ it with cur := e, deltaIndex := it.deltaIndex + 1 }, s',
          (it.deltaIndex, it.cur, it.delta))

/-- One dispatch of `iterator::_nextInsn()`: parse an instruction and execute
its case, then check `invariant(_count || insn.kind() == Skip)`.  Returns the
new iterator, store, the recorded `applyDelta` triples (empty or singleton)
and the instruction's kind. -/
def nextInsn (ts : Nat → Nat) (it : Iter) (s : Store) :
    Option (Iter × Store × List Triple × Nat) :=
  match parseInsn it.insn 0 with
  | none => none
  | some (i, rest) =>
    let k := i.kind
    let step? : Option (Iter × Store × List Triple) :=
      if k ≤ 1 then
        -- Literal0/Literal1: invariant(!insn.op() || !*_insn); the element is
        -- re-read from the opcode byte onwards; _count = 1.
        match readElem ts (i.op :: rest) with
        | none => none
        | some (e, rest') => some ({ it with cur := e, insn := rest', count := 1 }, s, [])
      else if k = 2 then
        -- Skip: _index += insn.countArg() (int32 wrap), _count unchanged (0).
        some ({ it with insn := rest,
                        index := toInt32 ((toU64 it.index + i.countArg) % 2 ^ 64) }, s, [])
      else if k = 3 then
        -- Delta: _count = -insn.countArg().
        some ({ it with insn := rest, count := toInt32 (Instr.negU64 i.countArg) }, s, [])
      else if k = 4 then
        -- Copy: _count = insn.countArg().
        some ({ it with insn := rest, count := toInt32 i.countArg }, s, [])
      else if k = 5 then
        -- SetNegDelta: _delta = -insn.deltaArg(); apply once; _count = 1.
        match applyStep { it with insn := rest, delta := Instr.negU64 i.deltaArg } s with
        | none => none
        | some (it', s', t) => some ({ it' with count := 1 }, s', [t])
      else if k = 6 then
        -- SetDelta: _delta = insn.deltaArg(); apply once; _count = 1.
        match applyStep { it with insn := rest, delta := i.deltaArg } s with
        | none => none
        | some (it', s', t) => some ({ it' with count := 1 }, s', [t])
      else none  -- unhandled kind: the final invariant fails
    match step? with
    | none => none
    | some (it', s', tr) =>
      if it'.count = 0 ∧ k ≠ 2 then none else some (it', s', tr, k)

/-- The `while (!_count) _nextInsn();` loop of `operator++`.  Fuel-based: every
`_nextInsn` consumes at least one stream byte, so `insn.length + 1` fuel always
suffices. -/
def fetchLoop (ts : Nat → Nat) : Nat → Iter → Store → Option (Iter × Store × List Triple)
  | 0, _, _ => none
  | fuel + 1, it, s =>
    if it.count = 0 then
      match nextInsn ts it s with
      | none => none
      | some (it', s', tr, _) =>
        match fetchLoop ts fuel it' s' with
        | none => none
        | some (it'', s'', tr') => some (it'', s'', tr ++ tr')
    else some (it, s, [])

/-- `iterator::operator++()`: run the fetch loop, increment `_index`, then
either consume one Copy repetition (`_count > 0`) or consume one Delta
repetition (`_count < 0`: increment `_count` and apply the current delta). -/
def iterNext (ts : Nat → Nat) (it : Iter) (s : Store) :
    Option (Iter × Store × List Triple) :=
  match fetchLoop ts (it.insn.length + 1) it s with
  | none => none
  | some (it1, s1, tr) =>
    let it2 := { it1 with index := it1.index + 1 }
    if (0 : Int) < it2.count then some ({ it2 with count := it2.count - 1 }, s1, tr)
    else
      match applyStep { it2 with count := it2.count + 1 } s1 with
      | none => none
      | some (it3, s3, t) => some (it3, s3, tr ++ [t])

/-- `n` applications of `operator++` to a given iterator and store,
accumulating the `applyDelta` call triples. -/
def iterSteps (ts : Nat → Nat) : Nat → Iter → Store → Option (Iter × Store × List Triple)
  | 0, it, s => some (it, s, [])
  | n + 1, it, s =>
    match iterSteps ts n it s with
    | none => none
    | some (it1, s1, tr) =>
      match iterNext ts it1 s1 with
      | none => none
      | some (it2, s2, tr') => some (it2, s2, tr ++ tr')

/-- Advance a fresh iterator over `body` by `n` steps, starting from the given
store (a fresh column starts from the empty store; a second iterator over the
same column starts from whatever the first left behind). -/
def iterRunFrom (ts : Nat → Nat) (body : List Nat) (s0 : Store) (n : Nat) :
    Option (Iter × Store × List Triple) :=
  match mkBegin ts body with
  | none => none
  | some it => iterSteps ts n it s0

/-- Advance a fresh iterator over `body` by `n` steps from the empty store. -/
def iterRun (ts : Nat → Nat) (body : List Nat) (n : Nat) :
    Option (Iter × Store × List Triple) :=
  iterRunFrom ts body [] n

/-- The `(index, element)` pairs yielded by the loop
`for (auto it = col.begin(); it != col.end(); ++it)` — dereference before each
increment, stop as soon as the iterator equals `end()`.  Fuel-based. -/
def decodeGo (ts : Nat → Nat) : Nat → Iter → Store → List (Int × BElem) →
    Option (List (Int × BElem))
  | 0, _, _, _ => none
  | fuel + 1, it, s, acc =>
    if isEnd it then some acc.reverse
    else
      match iterNext ts it s with
      | none => none
      | some (it', s', _) => decodeGo ts fuel it' s' ((it.index, it.cur) :: acc)

/-- Decode a column body to its yielded `(index, element)` pairs. -/
def decodeColumn (ts : Nat → Nat) (body : List Nat) (fuel : Nat) :
    Option (List (Int × BElem)) :=
  match mkBegin ts body with
  | none => none
  | some it => decodeGo ts fuel it [] []

/-! ## The builder (`BSONColumn::Builder`)

The builder state mirrors the source's fields.  `buf` is the output buffer from
`_offset` on (so `_offset = 0` in the model and `_b.len()` is `buf.length`).
Operations that can fail an `invariant` return a success flag, and every
operation also returns the list of values assigned to the `_deferrals` counter
during the call (in order), so that theorems can speak about the counter's
trajectory. -/

/-- `BinDataType::Column` subtype byte. -/
def binDataColumn : Nat := 7

/-- `BSONType::BinData` type byte. -/
def binDataType : Nat := 5

/-- Builder state: output buffer (from `_offset`), `_last`, `_delta`, `_index`,
`_deferrals`.  (`_deltaElem` only provides storage for `_last` and is folded
into it; `_offset` is 0.) -/
structure Builder where
  buf : List Nat
  last : BElem
  delta : Nat
  index : Int
  deferrals : Int
deriving DecidableEq, Repr

/-- The `Builder(BufBuilder&, StringData)` constructor: append the `BinData`
type byte, the field name with its NUL, a zero `int32` size, and the `Column`
subtype byte.  (`reserveBytes(1)` affects capacity only, not length.) -/
def initBuilder (name : List Nat) : Builder :=
  ⟨binDataType :: name ++ 0 :: leBytesN 4 0 ++ [binDataColumn], eooElem, 0, 0, 0⟩

/-- `Builder::_valueOffset()`: `_offset + 1 + strlen(_b.buf() + _offset) +
sizeof(int) + 1` (the `strlen` starts at the `BinData` type byte). -/
def valueOffset (s : Builder) : Nat := 1 + strlenL s.buf + 4 + 1

/-- `Builder::_isDone()`: `_last.eoo() && _b.len() < _valueOffset()`. -/
def isDone (s : Builder) : Prop := s.last.btype = 0 ∧ s.buf.length < valueOffset s

instance (s : Builder) : Decidable (isDone s) := by unfold isDone; infer_instance

/-- `Builder::_maybeUndoDone()`: when `_isDone()` holds, shorten the buffer by
one byte (`_b.setlen(_b.len() - 1)`). -/
def maybeUndoDone (s : Builder) : Builder :=
  if isDone s then { s with buf := s.buf.dropLast } else s

/-- `Builder::_updateBinDataSize()`: overwrite the four `int32` bytes at
`valueOffset - 5` with `_b.len() - _valueOffset()` (little-endian, modulo
`2 ^ 32`). -/
def updateBinDataSize (s : Builder) : Builder :=
  let vo := valueOffset s
  { s with buf := s.buf.take (vo - 5)
      ++ leBytesN 4 ((s.buf.length - vo) % 2 ^ 32) ++ s.buf.drop (vo - 1) }

/-- `Builder::_emitDeferredCopies()`: when `_deferrals > 0`, append a
`Copy _deferrals` instruction and reset the counter.  Also returns the values
assigned to `_deferrals`. -/
def emitDeferredCopies (s : Builder) : Builder × List Int :=
  if 0 < s.deferrals then
    ({ s with buf := s.buf ++ (Instr.mkCnt 4 s.deferrals.toNat).insnBytes,
              deferrals := 0 }, [0])
  else (s, [])

/-- `Builder::_emitDeferredDeltas()`: when `_deferrals < 0`, append a
`Delta (-_deferrals)` instruction and reset the counter. -/
def emitDeferredDeltas (s : Builder) : Builder × List Int :=
  if s.deferrals < 0 then
    ({ s with buf := s.buf ++ (Instr.mkCnt 3 (-s.deferrals).toNat).insnBytes,
              deferrals := 0 }, [0])
  else (s, [])

/-- `Builder::_emitDeferrals()`: flush copies, then deltas. -/
def emitDeferrals (s : Builder) : Builder × List Int :=
  let c := emitDeferredCopies s
  let d := emitDeferredDeltas c.1
  (d.1, c.2 ++ d.2)

/-- `Builder::_emitLiteral(elem)`: flush all deferrals, then append the element
verbatim (for EOO: just the 0 byte, then update the `BinData` size), set
`_last` to the just-written element and reset `_delta` to 0. -/
def emitLiteral (e : BElem) (s : Builder) : Builder × List Int :=
  let f := emitDeferrals s
  let s1 := f.1
  let s2 :=
    if e.btype = 0 then updateBinDataSize { s1 with buf := s1.buf ++ [0] }
    else { s1 with buf := s1.buf ++ litBytes e }
  ({ s2 with last := if e.btype = 0 then eooElem else ⟨e.btype, e.payload⟩,
             delta := 0 }, f.2)

/-- `Builder::_emitSkips(index)`: no-op when `index == _index`; the
`invariant(index > _index)` fails when `index < _index` (flag `false`, nothing
written); otherwise flush deferrals, append `Skip (index - _index)` and set
`_index = index`. -/
def emitSkips (i : Int) (s : Builder) : Builder × Bool × List Int :=
  if i = s.index then (s, true, [])
  else if i < s.index then (s, false, [])
  else
    let f := emitDeferrals s
    ({ f.1 with buf := f.1.buf ++ (Instr.mkCnt 2 (i - s.index).toNat).insnBytes,
                index := i }, true, f.2)

/-- `Builder::_tryCopy(elem)`: fails unless `elem` is binary-equal to `_last`
and `_last` is not EOO; on success flush any deferred deltas and defer one
copy. -/
def tryCopy (e : BElem) (s : Builder) : Builder × Bool × List Int :=
  if ¬ binEqVal e s.last ∨ s.last.btype = 0 then (s, false, [])
  else
    let f := emitDeferredDeltas s
    ({ f.1 with deferrals := f.1.deferrals + 1 }, true, f.2 ++ [f.1.deferrals + 1])

/-- `DeltaStore::Elem::store(elem)` as used for `_last = _deltaElem.store(elem)`:
the stored element has `elem`'s type byte and payload (and an empty name). -/
def storeElem (e : BElem) : BElem := ⟨e.btype, e.payload⟩

/-- `Builder::_tryDelta(elem)`: compute the delta against `_last`; fail on 0.
Otherwise flush deferred copies; if the delta repeats the current `_delta`,
defer one delta; else build the shortest `Set(Neg)Delta` and emit it only when
its size is strictly below `elem.size()` (otherwise fail, with the copies
already flushed); update `_delta` and `_last`. -/
def tryDelta (e : BElem) (s : Builder) : Builder × Bool × List Int :=
  let d := calculateDelta s.last e
  if d = 0 then (s, false, [])
  else
    let f := emitDeferredCopies s
    let s1 := f.1
    if d = s1.delta then
      ({ s1 with deferrals := s1.deferrals - 1, last := storeElem e }, true,
       f.2 ++ [s1.deferrals - 1])
    else
      let insn := Instr.makeDelta d
      if elemSize e ≤ insn.size then (s1, false, f.2)
      else
        ({ s1 with buf := s1.buf ++ insn.insnBytes, delta := d, last := storeElem e },
         true, f.2)

/-- The emission cascade of `Builder::append`:
`if (!_tryCopy(elem) && !_tryDelta(elem)) _emitLiteral(elem);`. -/
def appendTry (e : BElem) (s1 : Builder) : Builder × List Int :=
  let c := tryCopy e s1
  if c.2.1 then (c.1, c.2.2)
  else
    let dl := tryDelta e c.1
    if dl.2.1 then (dl.1, c.2.2 ++ dl.2.2)
    else
      let l := emitLiteral e dl.1
      (l.1, c.2.2 ++ dl.2.2 ++ l.2)

/-- `Builder::append(int, BSONElement)`: `_maybeUndoDone()`, `_emitSkips(index)`
(whose invariant may fail), then the copy/delta/literal cascade; finally
`++_index` for non-EOO elements. -/
def appendR (i : Int) (e : BElem) (s : Builder) : Builder × Bool × List Int :=
  let s0 := maybeUndoDone s
  let sk := emitSkips i s0
  if sk.2.1 = false then (sk.1, false, sk.2.2)
  else
    let t := appendTry e sk.1
    (if e.btype = 0 then t.1 else { t.1 with index := t.1.index + 1 }, true,
     sk.2.2 ++ t.2)

/-- `Builder::done()`: unless `_isDone()`, append the EOO element at the current
index (`append(BSONElement())`). -/
def doneR (s : Builder) : Builder × List Int :=
  if isDone s then (s, [])
  else
    let r := appendR s.index eooElem s
    (r.1, r.2.2)

/-- `Builder::append` ignoring the instrumentation. -/
def appendB (i : Int) (e : BElem) (s : Builder) : Builder := (appendR i e s).1

/-- `Builder::done()` ignoring the instrumentation. -/
def doneB (s : Builder) : Builder := (doneR s).1

/-- The column body inside the builder's buffer: the bytes after the `BinData`
framing (type byte, name + NUL, `int32` size, subtype byte). -/
def bodyOf (s : Builder) : List Nat := s.buf.drop (valueOffset s)

/-- One call in a builder usage trace. -/
inductive BOp where
  | app (i : Int) (e : BElem)
  | fin
deriving DecidableEq, Repr

/-- Run a sequence of `append`/`done` calls from a given state, accumulating
the `_deferrals` assignment trace.  A failed `append` invariant aborts the
process (remaining calls never run). -/
def runOpsR : List BOp → Builder → Builder × List Int
  | [], s => (s, [])
  | .app i e :: rest, s =>
    let r := appendR i e s
    if r.2.1 then
      let k := runOpsR rest r.1
      (k.1, r.2.2 ++ k.2)
    else (r.1, r.2.2)
  | .fin :: rest, s =>
    let r := doneR s
    let k := runOpsR rest r.1
    (k.1, r.2 ++ k.2)

/-- Run a sequence of builder calls, state only. -/
def runOps (ops : List BOp) (s : Builder) : Builder := (runOpsR ops s).1

/-! ## The column handle (`BSONColumn`) -/

/-- A `BSONColumn` references a `BSONElement` `_bin`: either the default EOO
element (default-constructed column) or a `BinData` element of subtype
`Column`, whose bytes are `bin`. -/
structure BColumn where
  bin : Option (List Nat)
deriving DecidableEq, Repr

/-- The column returned by `Builder::done()`:
`BSONColumn(BSONElement(_b.buf() + _offset))`. -/
def columnOf (s : Builder) : BColumn := ⟨some s.buf⟩

/-- A default-constructed `BSONColumn` (EOO `_bin`). -/
def defaultColumn : BColumn := ⟨none⟩

/-- `BSONColumn::objsize()`, i.e. `_bin.size()`: 1 for the EOO element;
for a `BinData` element, type byte + name (with NUL) + `int32` + subtype byte +
the stored `int32` length. -/
def objsize (c : BColumn) : Int :=
  match c.bin with
  | none => 1
  | some bytes => 7 + strlenL (bytes.drop 1) + readI32 (bytes.drop (strlenL (bytes.drop 1) + 2))

/-- `BSONColumn::isEmpty()`: `objsize() <= 5`. -/
def isEmpty (c : BColumn) : Bool := objsize c ≤ 5

/-! ## Concrete instances used by the theorems -/

/-- Payload sizes with `NumberInt` (type tag 16, 4-byte value) as the only
scalar type in play. -/
def ts16 : Nat → Nat := fun t => if t = 16 then 4 else 0

/-- Payload sizes with `NumberDouble` (type tag 1, 8-byte value) as the only
scalar type in play. -/
def tsD : Nat → Nat := fun t => if t = 1 then 8 else 0

/-- A `NumberInt` element with value `n`. -/
def intEl (n : Nat) : BElem := ⟨16, leBytesN 4 n⟩

/-- The field name `"col"` used by the unit tests. -/
def colName : List Nat := [99, 111, 108]

/-- The doubles 72.0, 72.5, 73.0, 73.5 as little-endian IEEE-754 payloads. -/
def dbl72 : BElem := ⟨1, [0, 0, 0, 0, 0, 0, 0x52, 0x40]⟩

/-- 72.5. -/
def dbl72x5 : BElem := ⟨1, [0, 0, 0, 0, 0, 0x20, 0x52, 0x40]⟩

/-- 73.0. -/
def dbl73 : BElem := ⟨1, [0, 0, 0, 0, 0, 0x40, 0x52, 0x40]⟩

/-- 73.5. -/
def dbl73x5 : BElem := ⟨1, [0, 0, 0, 0, 0, 0x60, 0x52, 0x40]⟩

/-- The 18-byte example column body from the spec and the unit tests. -/
def exampleBody : List Nat :=
  [0x01, 0x00, 0x00, 0x00, 0x00, 0x00, 0x00, 0x00, 0x52, 0x40,
   0x86, 0x43, 0x81, 0x6B, 0x32, 0x22, 0x41, 0x00]

/-- What decoding `exampleBody` actually yields: 72.0 at indices 0..99, then
72.5, 73.0, 73.5 at 100..102, and 73.5 at index 105 (the `Skip 2` byte `0x22`
advances past 103 and 104 only). -/
def c2Actual : List (Int × BElem) :=
  ((List.range 100).map fun i => ((i : Int), dbl72)) ++
    [(100, dbl72x5), (101, dbl73), (102, dbl73x5), (105, dbl73x5)]

/-- The output asserted by the claim: the same 104 pairs but with the final
element at index 106 (indices 103..105 absent). -/
def c2Claimed : List (Int × BElem) :=
  ((List.range 100).map fun i => ((i : Int), dbl72)) ++
    [(100, dbl72x5), (101, dbl73), (102, dbl73x5), (106, dbl73x5)]

/-- The round-trip failing input: `NumberInt` values 0, 1, 2, 4 at indices
0..3. -/
def c1Input : List BOp :=
  [.app 0 (intEl 0), .app 1 (intEl 1), .app 2 (intEl 2), .app 3 (intEl 4), .fin]

/-- The builder state after appending the failing input and finishing. -/
def c1Builder : Builder := runOps c1Input (initBuilder colName)

/-! ## Claim C1 — round-trip -/

/-- C1: the round-trip claim fails on the code.  Appending the `NumberInt`
values 0, 1, 2, 4 at indices 0..3 (all present, strictly increasing, each
element delta-materialisable with a 4-byte payload) and finishing produces the
body `10 00 00 00 00 00 60 81 60 31 00`: after the deferred `Delta` run begins
(values 1 then 2, both with delta +1), the append of value 4 emits a new
`SetDelta 2` while the pending delta deferral is still unflushed
(`_tryDelta` flushes only *copy* deferrals), so the `Delta 1` instruction is
flushed *after* the `SetDelta 2` and re-applies the new delta.  Decoding
therefore yields the values 0, 1, 3, 5 — not the appended 0, 1, 2, 4. -/
theorem c1_roundtrip_violated :
    bodyOf c1Builder = [0x10, 0, 0, 0, 0, 0, 0x60, 0x81, 0x60, 0x31, 0] ∧
    decodeColumn ts16 (bodyOf c1Builder) 20 =
      some [(0, intEl 0), (1, intEl 1), (2, intEl 3), (3, intEl 5)] ∧
    some [(0, intEl 0), (1, intEl 1), (2, intEl 3), (3, intEl 5)] ≠
      some [(0, intEl 0), (1, intEl 1), (2, intEl 2), (3, intEl 4)] := by
  refine ⟨by decide, by decide, by decide⟩

/-! ## Claim C2 — decoding the 18-byte example body -/

/-- C2 (counterexample): decoding the example body does *not* produce the
claimed list ending at index 106: the `Skip` instruction byte `0x22` has count
2, so after index 102 the decoder skips 103 and 104 and yields the final 73.5
at index 105; in particular the claimed pair `(106, 73.5)` is never yielded. -/
theorem c2_claim_refuted :
    decodeColumn tsD exampleBody 200 = some c2Actual ∧
    c2Actual ≠ c2Claimed ∧
    ((106 : Int), dbl73x5) ∉ c2Actual := by
  refine ⟨by decide, by decide, by decide⟩

/-- C2 (amended): decoding the example body with a forward iterator yields
exactly 104 `(index, value)` pairs — double 72.0 at every index 0..99, 72.5 at
index 100, 73.0 at 101, 73.5 at 102, and 73.5 at index 105, with indices
103..104 absent. -/
theorem c2_decode_actual :
    decodeColumn tsD exampleBody 200 = some c2Actual ∧ c2Actual.length = 104 := by
  refine ⟨by decide, by decide⟩

/-! ## Claim C6 — `done()` idempotence -/

/-- C6: `done()` is not idempotent.  For a fresh builder (field name `"col"`),
the first `done()` leaves the buffer `05 'col' 00 | 01 00 00 00 | 07 | 00`;
calling `done()` again appends a *second* `0x00` sentinel byte and rewrites the
stored length to 2, because `_isDone()` tests `_b.len() < _valueOffset()`,
which is false in every reachable state, so the second `done()` runs
`append(BSONElement())` again. -/
theorem c6_done_not_idempotent :
    (doneB (initBuilder colName)).buf =
      [5, 99, 111, 108, 0, 1, 0, 0, 0, 7, 0] ∧
    (doneB (doneB (initBuilder colName))).buf =
      [5, 99, 111, 108, 0, 2, 0, 0, 0, 7, 0, 0] ∧
    (doneB (doneB (initBuilder colName))).buf ≠ (doneB (initBuilder colName)).buf := by
  refine ⟨by decide, by decide, by decide⟩

/-! ## Instruction-size lemmas -/

theorem prefixBytes_length_eq_sizeDigits (fuel p : Nat) :
    (Instr.prefixBytes fuel p).length = Instr.sizeDigits fuel p := by
  induction fuel generalizing p with
  | zero => rfl
  | succ fuel ih =>
    simp only [Instr.prefixBytes, Instr.sizeDigits]
    split
    · rfl
    · simp [ih]; omega

theorem size_eq_insnBytes_length (i : Instr) (h : i.op ≠ 0) :
    i.size = i.insnBytes.length := by
  simp [Instr.size, Instr.insnBytes, h, prefixBytes_length_eq_sizeDigits]
  omega

theorem prefixBytes_length_le (fuel k p : Nat) (hp : p < 128 ^ k) (hk : k ≤ fuel) :
    (Instr.prefixBytes fuel p).length ≤ k := by
  induction fuel generalizing k p with
  | zero => simp [Instr.prefixBytes]
  | succ fuel ih =>
    simp only [Instr.prefixBytes]
    split
    · simp
    · match k with
      | 0 => omega
      | k + 1 =>
        simp only [List.length_append, List.length_cons, List.length_nil]
        have hlt : p / 128 < 128 ^ k := by
          refine Nat.div_lt_of_lt_mul ?_
          rw [pow_succ] at hp
          omega
        have := ih k (p / 128) hlt (by omega)
        omega

theorem mkSet_op_ne_zero (kind arg : Nat) (h : 0 < kind) :
    (Instr.mkSet kind arg).op ≠ 0 := by
  simp only [Instr.mkSet]
  omega

theorem makeDelta_op_ne_zero (d : Nat) : (Instr.makeDelta d).op ≠ 0 := by
  simp only [Instr.makeDelta]
  split
  · exact mkSet_op_ne_zero 5 _ (by norm_num)
  · exact mkSet_op_ne_zero 6 _ (by norm_num)

/-! ## Claim C10 — the serialisation buffer bound -/

/-- C10: for every instruction whose prefix fits in a `uint64_t`, the
prefix-emission loop of `Instruction::append` runs at most 10 iterations
(one per base-128 digit written), and the total bytes written — prefix plus
the opcode byte — number at most 11, so the 11-byte stack buffer is never
overrun. -/
theorem c10_append_bound (i : Instr) (h : i.pfx < 2 ^ 64) :
    (Instr.prefixBytes 64 i.pfx).length ≤ 10 ∧ i.insnBytes.length ≤ 11 := by
  have h10 : (Instr.prefixBytes 64 i.pfx).length ≤ 10 := by
    refine prefixBytes_length_le 64 10 i.pfx ?_ (by norm_num)
    calc i.pfx < 2 ^ 64 := h
    _ ≤ 128 ^ 10 := by norm_num
  refine ⟨h10, ?_⟩
  simp only [Instr.insnBytes, List.length_append, List.length_cons, List.length_nil]
  omega

/-- C10 witness: the `Copy 99` instruction from the example column. -/
theorem c10_append_bound_witness :
    (⟨0x43, 6⟩ : Instr).pfx < 2 ^ 64 ∧
    ((Instr.prefixBytes 64 (⟨0x43, 6⟩ : Instr).pfx).length ≤ 10 ∧
      (⟨0x43, 6⟩ : Instr).insnBytes.length ≤ 11) :=
  ⟨by decide, c10_append_bound ⟨0x43, 6⟩ (by decide)⟩

/-! ## Claim C7 — the delta sign choice -/

/-- C7: for a nonzero 64-bit delta `d`, `Instruction::makeDelta d` returns
whichever of `SetDelta d` and `SetNegDelta (-d mod 2^64)` serialises to fewer
bytes, and the tie-break is deterministic: on equal sizes the `SetDelta` form
is returned. -/
theorem c7_sign_choice (d : Nat) (h0 : 0 < d) (h64 : d < 2 ^ 64) :
    (Instr.makeDelta d).insnBytes.length =
      min (Instr.mkSet 6 d).insnBytes.length
        (Instr.mkSet 5 (Instr.negU64 d)).insnBytes.length ∧
    ((Instr.mkSet 5 (Instr.negU64 d)).insnBytes.length =
        (Instr.mkSet 6 d).insnBytes.length →
      Instr.makeDelta d = Instr.mkSet 6 d) := by
  have hpos := size_eq_insnBytes_length (Instr.mkSet 6 d) (mkSet_op_ne_zero 6 d (by norm_num))
  have hneg := size_eq_insnBytes_length (Instr.mkSet 5 (Instr.negU64 d))
    (mkSet_op_ne_zero 5 _ (by norm_num))
  simp only [Instr.makeDelta]
  split
  · constructor
    · omega
    · intro hEq; omega
  · constructor
    · omega
    · intro _; rfl

/-- C7 witness: `d = 3`. -/
theorem c7_sign_choice_witness :
    0 < 3 ∧ (3 : Nat) < 2 ^ 64 ∧
    ((Instr.makeDelta 3).insnBytes.length =
      min (Instr.mkSet 6 3).insnBytes.length
        (Instr.mkSet 5 (Instr.negU64 3)).insnBytes.length ∧
    ((Instr.mkSet 5 (Instr.negU64 3)).insnBytes.length =
        (Instr.mkSet 6 3).insnBytes.length →
      Instr.makeDelta 3 = Instr.mkSet 6 3)) :=
  ⟨by decide, by decide, c7_sign_choice 3 (by decide) (by decide)⟩

/-! ## Builder helper lemmas -/

theorem emitDeferredCopies_delta (s : Builder) :
    (emitDeferredCopies s).1.delta = s.delta := by
  unfold emitDeferredCopies; split <;> rfl

theorem emitDeferredCopies_last (s : Builder) :
    (emitDeferredCopies s).1.last = s.last := by
  unfold emitDeferredCopies; split <;> rfl

theorem maybeUndoDone_of_wf (s : Builder) (hwf : valueOffset s ≤ s.buf.length) :
    maybeUndoDone s = s := by
  unfold maybeUndoDone
  rw [if_neg]
  rintro ⟨-, h⟩
  omega

theorem emitSkips_self (s : Builder) : emitSkips s.index s = (s, true, []) := by
  unfold emitSkips
  simp

theorem tryCopy_fail_state (e : BElem) (s : Builder) (h : (tryCopy e s).2.1 = false) :
    (tryCopy e s).1 = s := by
  unfold tryCopy
  split
  · rfl
  · exfalso
    unfold tryCopy at h
    rw [if_neg ‹_›] at h
    simp at h

theorem emitLiteral_buf (e : BElem) (s : Builder) (hb : e.btype ≠ 0) :
    (emitLiteral e s).1.buf = (emitDeferrals s).1.buf ++ litBytes e := by
  simp only [emitLiteral, hb, if_neg hb]
  simp

/-- When the copy and delta paths both fail, `append` at the current index
emits the element as a literal (preceded by the deferral flushes and by
whatever bytes `_tryDelta` wrote while failing). -/
theorem appendTry_literal_buf (s : Builder) (e : BElem) (hb : e.btype ≠ 0)
    (hcopy : (tryCopy e s).2.1 = false) (hdel : (tryDelta e s).2.1 = false) :
    (appendTry e s).1.buf = (emitDeferrals (tryDelta e s).1).1.buf ++ litBytes e := by
  simp only [appendTry, hcopy, tryCopy_fail_state e s hcopy, hdel,
    Bool.false_eq_true, if_false]
  simp [emitLiteral_buf e _ hb]

/-- When the copy and delta paths both fail, `append` at the current index
emits the element as a literal (preceded by the deferral flushes and by
whatever bytes `_tryDelta` wrote while failing). -/
theorem append_emits_literal (s : Builder) (e : BElem)
    (hwf : valueOffset s ≤ s.buf.length) (hb : e.btype ≠ 0)
    (hcopy : (tryCopy e s).2.1 = false) (hdel : (tryDelta e s).2.1 = false) :
    (appendR s.index e s).1.buf =
      (emitDeferrals (tryDelta e s).1).1.buf ++ litBytes e := by
  simp only [appendR, maybeUndoDone_of_wf s hwf, emitSkips_self, if_neg hb]
  simpa using appendTry_literal_buf s e hb hcopy hdel

/-- The reduction of `_tryDelta` when the delta is nonzero and does not repeat
the current `_delta`. -/
theorem tryDelta_new_delta (e : BElem) (s : Builder)
    (hd : calculateDelta s.last e ≠ 0) (hdd : calculateDelta s.last e ≠ s.delta) :
    tryDelta e s =
      if elemSize e ≤ (Instr.makeDelta (calculateDelta s.last e)).size
      then ((emitDeferredCopies s).1, false, (emitDeferredCopies s).2)
      else ({ (emitDeferredCopies s).1 with
                buf := (emitDeferredCopies s).1.buf
                  ++ (Instr.makeDelta (calculateDelta s.last e)).insnBytes,
                delta := calculateDelta s.last e, last := storeElem e },
            true, (emitDeferredCopies s).2) := by
  simp only [tryDelta, if_neg hd, emitDeferredCopies_delta, if_neg hdd]

/-! ## Claim C3 — delta profitability -/

/-- C3: when `append` emits a *new* `SetDelta`/`SetNegDelta` instruction
(the delta is nonzero and differs from the current `_delta`, so this is not a
deferred repeat), the emitted instruction's serialised byte length is strictly
smaller than the length of the literal that would otherwise be written (type
byte, empty name byte, value payload); and when the instruction is not
strictly shorter, `_tryDelta` refuses and `append` emits the literal instead.
(Elements here carry the codec's conventional empty field name, so the
source's `elem.size()` equals the emitted literal's length.) -/
theorem c3_delta_profitability (s : Builder) (e : BElem)
    (hb : e.btype ≠ 0)
    (hd : calculateDelta s.last e ≠ 0)
    (hdd : calculateDelta s.last e ≠ s.delta) :
    ((tryDelta e s).2.1 = true →
      (Instr.makeDelta (calculateDelta s.last e)).insnBytes.length
          < (litBytes e).length ∧
      (tryDelta e s).1.buf =
        (emitDeferredCopies s).1.buf
          ++ (Instr.makeDelta (calculateDelta s.last e)).insnBytes) ∧
    ((litBytes e).length ≤
        (Instr.makeDelta (calculateDelta s.last e)).insnBytes.length →
      (tryDelta e s).2.1 = false ∧
      (¬ binEqVal e s.last → valueOffset s ≤ s.buf.length →
        ∃ pre, (appendR s.index e s).1.buf = pre ++ litBytes e)) := by
  have hsz : elemSize e = (litBytes e).length := by
    simp only [elemSize, litBytes, if_neg hb, List.length_cons]
    omega
  have hmk := size_eq_insnBytes_length (Instr.makeDelta (calculateDelta s.last e))
    (makeDelta_op_ne_zero _)
  have htd := tryDelta_new_delta e s hd hdd
  by_cases hle : elemSize e ≤ (Instr.makeDelta (calculateDelta s.last e)).size
  · rw [if_pos hle] at htd
    constructor
    · intro hflag
      rw [htd] at hflag
      simp at hflag
    · intro _
      have hflag : (tryDelta e s).2.1 = false := by rw [htd]
      refine ⟨hflag, fun hne hwf => ?_⟩
      have hcopy : (tryCopy e s).2.1 = false := by
        unfold tryCopy
        rw [if_pos (Or.inl hne)]
      exact ⟨_, append_emits_literal s e hwf hb hcopy hflag⟩
  · rw [if_neg hle] at htd
    constructor
    · intro _
      rw [htd]
      exact ⟨by omega, rfl⟩
    · intro hcontra
      omega

/-- C3 witness: builder state after one literal `NumberInt 0`, appending
`NumberInt 1` (delta 1, the one-byte `SetDelta 1` instruction, literal length
6). -/
theorem c3_delta_profitability_witness :
    (intEl 1).btype ≠ 0 ∧
    calculateDelta (appendB 0 (intEl 0) (initBuilder colName)).last (intEl 1) ≠ 0 ∧
    calculateDelta (appendB 0 (intEl 0) (initBuilder colName)).last (intEl 1) ≠
      (appendB 0 (intEl 0) (initBuilder colName)).delta ∧
    (((tryDelta (intEl 1) (appendB 0 (intEl 0) (initBuilder colName))).2.1 = true →
      (Instr.makeDelta (calculateDelta
          (appendB 0 (intEl 0) (initBuilder colName)).last (intEl 1))).insnBytes.length
          < (litBytes (intEl 1)).length ∧
      (tryDelta (intEl 1) (appendB 0 (intEl 0) (initBuilder colName))).1.buf =
        (emitDeferredCopies (appendB 0 (intEl 0) (initBuilder colName))).1.buf
          ++ (Instr.makeDelta (calculateDelta
              (appendB 0 (intEl 0) (initBuilder colName)).last (intEl 1))).insnBytes) ∧
    ((litBytes (intEl 1)).length ≤
        (Instr.makeDelta (calculateDelta
          (appendB 0 (intEl 0) (initBuilder colName)).last (intEl 1))).insnBytes.length →
      (tryDelta (intEl 1) (appendB 0 (intEl 0) (initBuilder colName))).2.1 = false ∧
      (¬ binEqVal (intEl 1) (appendB 0 (intEl 0) (initBuilder colName)).last →
        valueOffset (appendB 0 (intEl 0) (initBuilder colName)) ≤
          (appendB 0 (intEl 0) (initBuilder colName)).buf.length →
        ∃ pre, (appendR (appendB 0 (intEl 0) (initBuilder colName)).index (intEl 1)
            (appendB 0 (intEl 0) (initBuilder colName))).1.buf
          = pre ++ litBytes (intEl 1)))) :=
  ⟨by decide, by decide, by decide,
    c3_delta_profitability (appendB 0 (intEl 0) (initBuilder colName)) (intEl 1)
      (by decide) (by decide) (by decide)⟩

/-! ## Claim C8 — monotonic-index error handling -/

/-- C8 (counterexample): the claim asserts that any `append` whose index is
less than *or equal to* the next-index counter fails; but `index == _index`
is the ordinary non-skipping path.  On a fresh builder (`_index == 0`),
`append(0, NumberInt 5)` succeeds and appends the 6-byte literal. -/
theorem c8_claim_refuted :
    (0 : Int) ≤ (initBuilder colName).index ∧
    (appendR 0 (intEl 5) (initBuilder colName)).2.1 = true ∧
    (appendR 0 (intEl 5) (initBuilder colName)).1.buf ≠ (initBuilder colName).buf := by
  refine ⟨by decide, by decide, by decide⟩

/-- C8 (amended): an `append` of a non-absent element whose index is *strictly
less* than the builder's next-index counter fails the
`invariant(index > _index)` in `_emitSkips` before anything is written: the
builder state (in particular the output buffer) is returned unchanged, with
the failure flag set.  (The hypothesis `valueOffset s ≤ s.buf.length` holds in
every reachable builder state; it rules out `_maybeUndoDone` interfering.) -/
theorem c8_below_index_rejected (s : Builder) (i : Int) (e : BElem)
    (he : e.btype ≠ 0) (hlt : i < s.index) (hwf : valueOffset s ≤ s.buf.length) :
    appendR i e s = (s, false, []) := by
  have hne : ¬ i = s.index := by omega
  simp only [appendR, maybeUndoDone_of_wf s hwf, emitSkips, if_neg hne, if_pos hlt]
  simp

/-- C8 witness: after appending `NumberInt 5` at index 0 the next index is 1;
`append(0, NumberInt 6)` is rejected without touching the buffer. -/
theorem c8_below_index_rejected_witness :
    (intEl 6).btype ≠ 0 ∧
    (0 : Int) < (appendB 0 (intEl 5) (initBuilder colName)).index ∧
    appendR 0 (intEl 6) (appendB 0 (intEl 5) (initBuilder colName)) =
      ((appendB 0 (intEl 5) (initBuilder colName)), false, []) :=
  ⟨by decide, by decide,
    c8_below_index_rejected (appendB 0 (intEl 5) (initBuilder colName)) 0 (intEl 6)
      (by decide) (by decide) (by decide)⟩

/-! ## Claim C5 — the deferral-counter invariant

The instrumented builder operations record every value assigned to
`_deferrals`; the claim is that in this trajectory a strictly positive value is
never followed directly by a strictly negative one or vice versa. -/

/-- One admissible move of the `_deferrals` counter: no direct crossing
between a strictly positive and a strictly negative value. -/
def okStep (a b : Int) : Prop := ¬(0 < a ∧ b < 0) ∧ ¬(a < 0 ∧ 0 < b)

/-- A deferral trajectory starting at `d`, passing through the assigned values
`t`, is admissible and ends at `d'`. -/
def TraceOK (d : Int) (t : List Int) (d' : Int) : Prop :=
  List.Chain' okStep (d :: t) ∧ t.getLastD d = d'

theorem traceOK_nil (d : Int) : TraceOK d [] d := ⟨List.chain'_singleton d, rfl⟩

theorem traceOK_append {d d1 d2 : Int} {t1 t2 : List Int}
    (h1 : TraceOK d t1 d1) (h2 : TraceOK d1 t2 d2) : TraceOK d (t1 ++ t2) d2 := by
  induction t1 generalizing d with
  | nil =>
    obtain ⟨-, h⟩ := h1
    simp only [List.getLastD_nil] at h
    subst h
    simpa using h2
  | cons a t1 ih =>
    obtain ⟨hc, hl⟩ := h1
    rw [List.chain'_cons] at hc
    rw [List.getLastD_cons] at hl
    have := ih (d := a) ⟨hc.2, hl⟩
    refine ⟨List.chain'_cons.2 ⟨hc.1, this.1⟩, ?_⟩
    rw [List.cons_append, List.getLastD_cons]
    exact this.2

theorem traceOK_single {d d' : Int} (h : okStep d d') : TraceOK d [d'] d' :=
  ⟨List.chain'_cons.2 ⟨h, List.chain'_singleton d'⟩, rfl⟩

theorem emitDeferredCopies_trace (s : Builder) :
    TraceOK s.deferrals (emitDeferredCopies s).2 (emitDeferredCopies s).1.deferrals := by
  unfold emitDeferredCopies
  split
  · exact traceOK_single (by unfold okStep; omega)
  · exact traceOK_nil _

theorem emitDeferredDeltas_trace (s : Builder) :
    TraceOK s.deferrals (emitDeferredDeltas s).2 (emitDeferredDeltas s).1.deferrals := by
  unfold emitDeferredDeltas
  split
  · exact traceOK_single (by unfold okStep; omega)
  · exact traceOK_nil _

theorem emitDeferrals_trace (s : Builder) :
    TraceOK s.deferrals (emitDeferrals s).2 (emitDeferrals s).1.deferrals :=
  traceOK_append (emitDeferredCopies_trace s) (emitDeferredDeltas_trace _)

theorem emitDeferredDeltas_deferrals_nonneg (s : Builder) :
    (0 : Int) ≤ (emitDeferredDeltas s).1.deferrals := by
  unfold emitDeferredDeltas
  split
  · simp
  · simp
    omega

theorem emitDeferredCopies_deferrals_nonpos (s : Builder) :
    (emitDeferredCopies s).1.deferrals ≤ 0 := by
  unfold emitDeferredCopies
  split
  · simp
  · simp
    omega

theorem tryCopy_trace (e : BElem) (s : Builder) :
    TraceOK s.deferrals (tryCopy e s).2.2 (tryCopy e s).1.deferrals := by
  simp only [tryCopy]
  split
  · exact traceOK_nil _
  · have hge := emitDeferredDeltas_deferrals_nonneg s
    exact traceOK_append (emitDeferredDeltas_trace s)
      (traceOK_single (by unfold okStep; omega))

theorem tryDelta_trace (e : BElem) (s : Builder) :
    TraceOK s.deferrals (tryDelta e s).2.2 (tryDelta e s).1.deferrals := by
  simp only [tryDelta]
  split
  · exact traceOK_nil _
  · have hle := emitDeferredCopies_deferrals_nonpos s
    split
    · exact traceOK_append (emitDeferredCopies_trace s)
        (traceOK_single (by unfold okStep; omega))
    · split
      · simpa using emitDeferredCopies_trace s
      · simpa using emitDeferredCopies_trace s

theorem updateBinDataSize_deferrals (s : Builder) :
    (updateBinDataSize s).deferrals = s.deferrals := rfl

theorem emitLiteral_trace (e : BElem) (s : Builder) :
    TraceOK s.deferrals (emitLiteral e s).2 (emitLiteral e s).1.deferrals := by
  simp only [emitLiteral]
  split
  · simpa [updateBinDataSize_deferrals] using emitDeferrals_trace s
  · simpa using emitDeferrals_trace s

theorem emitSkips_trace (i : Int) (s : Builder) :
    TraceOK s.deferrals (emitSkips i s).2.2 (emitSkips i s).1.deferrals := by
  simp only [emitSkips]
  split
  · exact traceOK_nil _
  · split
    · exact traceOK_nil _
    · simpa using emitDeferrals_trace s

theorem maybeUndoDone_deferrals (s : Builder) :
    (maybeUndoDone s).deferrals = s.deferrals := by
  unfold maybeUndoDone
  split <;> rfl

theorem appendTry_trace (e : BElem) (s1 : Builder) :
    TraceOK s1.deferrals (appendTry e s1).2 (appendTry e s1).1.deferrals := by
  have Htc := tryCopy_trace e s1
  rcases hc : tryCopy e s1 with ⟨s2, ok2, t2⟩
  rw [hc] at Htc
  simp only [appendTry, hc]
  cases ok2 with
  | true => simpa using Htc
  | false =>
    simp only [Bool.false_eq_true, if_false]
    have Htd := tryDelta_trace e s2
    rcases hd : tryDelta e s2 with ⟨s3, ok3, t3⟩
    rw [hd] at Htd
    simp only [hd]
    cases ok3 with
    | true => simpa using traceOK_append Htc Htd
    | false =>
      simp only [Bool.false_eq_true, if_false]
      have Hl := emitLiteral_trace e s3
      rcases hl : emitLiteral e s3 with ⟨s4, t4⟩
      rw [hl] at Hl
      simp only [hl]
      simpa using traceOK_append Htc (traceOK_append Htd Hl)

theorem appendR_trace (i : Int) (e : BElem) (s : Builder) :
    TraceOK s.deferrals (appendR i e s).2.2 (appendR i e s).1.deferrals := by
  unfold appendR
  rw [← maybeUndoDone_deferrals s]
  generalize maybeUndoDone s = s0
  have Hsk := emitSkips_trace i s0
  rcases hsk : emitSkips i s0 with ⟨s1, ok1, t1⟩
  rw [hsk] at Hsk
  simp only [hsk]
  cases ok1 with
  | false => simpa using Hsk
  | true =>
    simp only [Bool.true_eq_false, if_false]
    have Ht := appendTry_trace e s1
    rcases ht : appendTry e s1 with ⟨s2, t2⟩
    rw [ht] at Ht
    simp only [ht]
    split <;> simpa using traceOK_append Hsk Ht

theorem doneR_trace (s : Builder) :
    TraceOK s.deferrals (doneR s).2 (doneR s).1.deferrals := by
  unfold doneR
  split
  · exact traceOK_nil _
  · exact appendR_trace s.index eooElem s

theorem runOpsR_trace (ops : List BOp) (s : Builder) :
    TraceOK s.deferrals (runOpsR ops s).2 (runOpsR ops s).1.deferrals := by
  induction ops generalizing s with
  | nil => exact traceOK_nil _
  | cons op rest ih =>
    cases op with
    | app i e =>
      simp only [runOpsR]
      have Ha := appendR_trace i e s
      rcases ha : appendR i e s with ⟨s1, ok, t⟩
      rw [ha] at Ha
      cases ok with
      | true => simpa using traceOK_append Ha (ih s1)
      | false => simpa using Ha
    | fin =>
      simp only [runOpsR]
      have Hd := doneR_trace s
      rcases hd : doneR s with ⟨s1, t⟩
      rw [hd] at Hd
      simpa using traceOK_append Hd (ih s1)

/-! ## Claim C5 — statement -/

/-- C5: over any sequence of `append`/`done` calls on a fresh builder, the
trajectory of the signed `_deferrals` counter (starting at 0, then every value
assigned to it, in order) never moves directly between a strictly positive and
a strictly negative value: copy deferrals only increment a non-negative
counter (deltas flushed first), delta deferrals only decrement a non-positive
counter (copies flushed first), and literal/skip/finish emissions reset it to
zero via the flushes. -/
theorem c5_deferral_invariant (name : List Nat) (ops : List BOp) :
    List.Chain' okStep ((0 : Int) :: (runOpsR ops (initBuilder name)).2) := by
  have h := runOpsR_trace ops (initBuilder name)
  have h0 : (initBuilder name).deferrals = 0 := rfl
  rw [h0] at h
  exact h.1

/-! ## The builder's framing invariant (for claim C9)

Every reachable builder buffer is the `BinData` framing — type byte, the
NUL-free field name with its NUL, a 4-byte little-endian size, the `Column`
subtype byte — followed by the body bytes emitted so far. -/

theorem leBytesN_length (n v : Nat) : (leBytesN n v).length = n := by
  induction n generalizing v with
  | zero => rfl
  | succ n ih => simp [leBytesN, ih]

theorem leVal_leBytesN (n v : Nat) : leVal (leBytesN n v) = v % 256 ^ n := by
  induction n generalizing v with
  | zero => simp [leBytesN, leVal, Nat.mod_one]
  | succ n ih =>
    simp only [leBytesN, leVal, ih]
    rw [pow_succ', Nat.mod_mul]

theorem strlenL_append_zero (name rest : List Nat) (h : 0 ∉ name) :
    strlenL (name ++ 0 :: rest) = name.length := by
  induction name with
  | nil => simp [strlenL]
  | cons a name ih =>
    have ha : ¬ a = 0 := by
      intro h0
      exact h (by simp [h0])
    rw [List.cons_append, strlenL, if_neg ha,
      ih (fun hm => h (List.mem_cons_of_mem a hm))]
    simp only [List.length_cons]
    omega

/-- A buffer carrying the `BinData` framing around some body. -/
def FramedBuf (name buf : List Nat) : Prop :=
  ∃ k body, buf = binDataType :: (name ++ 0 :: (leBytesN 4 k ++ binDataColumn :: body))

theorem framedBuf_append {name buf : List Nat} (h : FramedBuf name buf) (X : List Nat) :
    FramedBuf name (buf ++ X) := by
  obtain ⟨k, body, rfl⟩ := h
  exact ⟨k, body ++ X, by simp⟩

theorem framedBuf_strlen {name buf : List Nat} (h : FramedBuf name buf)
    (hname : 0 ∉ name) : strlenL buf = 1 + name.length := by
  obtain ⟨k, body, rfl⟩ := h
  have h1 : strlenL (binDataType :: (name ++ 0 :: (leBytesN 4 k ++ binDataColumn :: body)))
      = 1 + strlenL (name ++ 0 :: (leBytesN 4 k ++ binDataColumn :: body)) := by
    simp [strlenL, binDataType]
  rw [h1, strlenL_append_zero _ _ hname]

theorem framedBuf_length {name buf : List Nat} (h : FramedBuf name buf) :
    name.length + 7 ≤ buf.length := by
  obtain ⟨k, body, rfl⟩ := h
  simp [leBytesN_length]
  omega

theorem framedBuf_valueOffset {name : List Nat} {s : Builder}
    (h : FramedBuf name s.buf) (hname : 0 ∉ name) :
    valueOffset s = name.length + 7 := by
  unfold valueOffset
  rw [framedBuf_strlen h hname]
  omega

theorem framedBuf_wf {name : List Nat} {s : Builder}
    (h : FramedBuf name s.buf) (hname : 0 ∉ name) :
    valueOffset s ≤ s.buf.length := by
  rw [framedBuf_valueOffset h hname]
  exact framedBuf_length h

theorem emitDeferredCopies_buf (s : Builder) :
    ∃ X, (emitDeferredCopies s).1.buf = s.buf ++ X := by
  unfold emitDeferredCopies
  split
  · exact ⟨_, rfl⟩
  · exact ⟨[], (List.append_nil _).symm⟩

theorem emitDeferredDeltas_buf (s : Builder) :
    ∃ X, (emitDeferredDeltas s).1.buf = s.buf ++ X := by
  unfold emitDeferredDeltas
  split
  · exact ⟨_, rfl⟩
  · exact ⟨[], (List.append_nil _).symm⟩

theorem emitDeferrals_buf (s : Builder) :
    ∃ X, (emitDeferrals s).1.buf = s.buf ++ X := by
  obtain ⟨X1, h1⟩ := emitDeferredCopies_buf s
  obtain ⟨X2, h2⟩ := emitDeferredDeltas_buf (emitDeferredCopies s).1
  exact ⟨X1 ++ X2, by
    rw [show (emitDeferrals s).1 = (emitDeferredDeltas (emitDeferredCopies s).1).1 from rfl,
      h2, h1, List.append_assoc]⟩

theorem emitSkips_buf (i : Int) (s : Builder) :
    ∃ X, (emitSkips i s).1.buf = s.buf ++ X := by
  unfold emitSkips
  split
  · exact ⟨[], (List.append_nil _).symm⟩
  · split
    · exact ⟨[], (List.append_nil _).symm⟩
    · obtain ⟨X, h⟩ := emitDeferrals_buf s
      exact ⟨X ++ (Instr.mkCnt 2 (i - s.index).toNat).insnBytes, by
        simp only [h, List.append_assoc]⟩

theorem tryCopy_buf (e : BElem) (s : Builder) :
    ∃ X, (tryCopy e s).1.buf = s.buf ++ X := by
  unfold tryCopy
  split
  · exact ⟨[], (List.append_nil _).symm⟩
  · obtain ⟨X, h⟩ := emitDeferredDeltas_buf s
    exact ⟨X, h⟩

theorem tryDelta_buf (e : BElem) (s : Builder) :
    ∃ X, (tryDelta e s).1.buf = s.buf ++ X := by
  simp only [tryDelta]
  split
  · exact ⟨[], (List.append_nil _).symm⟩
  · obtain ⟨X, h⟩ := emitDeferredCopies_buf s
    split
    · exact ⟨X, h⟩
    · split
      · exact ⟨X, h⟩
      · exact ⟨X ++ (Instr.makeDelta (calculateDelta s.last e)).insnBytes, by
          simp only [h, List.append_assoc]⟩

theorem updateBinDataSize_framed {name : List Nat} (k : Nat) (body : List Nat)
    (s : Builder) (hname : 0 ∉ name)
    (hbuf : s.buf = binDataType :: (name ++ 0 :: (leBytesN 4 k ++ binDataColumn :: body))) :
    (updateBinDataSize s).buf =
      binDataType :: (name ++ 0 :: (leBytesN 4 (body.length % 2 ^ 32)
        ++ binDataColumn :: body)) := by
  have hvo : valueOffset s = name.length + 7 :=
    framedBuf_valueOffset ⟨k, body, hbuf⟩ hname
  have hlen : s.buf.length = name.length + 7 + body.length := by
    rw [hbuf]
    simp [leBytesN_length]
    omega
  have hassoc : s.buf
      = (binDataType :: name ++ [0]) ++ (leBytesN 4 k ++ binDataColumn :: body) := by
    rw [hbuf]
    simp
  have hassoc2 : s.buf
      = ((binDataType :: name ++ [0]) ++ leBytesN 4 k) ++ binDataColumn :: body := by
    rw [hassoc]
    simp
  have hlen1 : (binDataType :: name ++ [0]).length = name.length + 2 := by simp
  have hlen2 : ((binDataType :: name ++ [0]) ++ leBytesN 4 k).length = name.length + 6 := by
    simp [leBytesN_length]
  have htake : s.buf.take (name.length + 2) = binDataType :: name ++ [0] := by
    rw [hassoc, ← hlen1, List.take_left]
  have hdrop : s.buf.drop (name.length + 6) = binDataColumn :: body := by
    rw [hassoc2, ← hlen2, List.drop_left]
  simp only [updateBinDataSize]
  rw [hvo]
  rw [show name.length + 7 - 5 = name.length + 2 from by omega]
  rw [show name.length + 7 - 1 = name.length + 6 from by omega]
  rw [htake, hdrop, hlen]
  rw [show name.length + 7 + body.length - (name.length + 7) = body.length from by omega]
  simp

theorem emitLiteral_eoo_buf (s : Builder) :
    (emitLiteral eooElem s).1.buf =
      (updateBinDataSize
        { (emitDeferrals s).1 with buf := (emitDeferrals s).1.buf ++ [0] }).buf := rfl

theorem emitLiteral_framed {name : List Nat} (e : BElem) (s : Builder)
    (hname : 0 ∉ name) (h : FramedBuf name s.buf) :
    FramedBuf name (emitLiteral e s).1.buf := by
  obtain ⟨X, hX⟩ := emitDeferrals_buf s
  by_cases he : e.btype = 0
  · have h2 : FramedBuf name ((emitDeferrals s).1.buf ++ [0]) := by
      rw [hX, List.append_assoc]
      exact framedBuf_append h _
    obtain ⟨k2, body2, hb2⟩ := h2
    have hupd := updateBinDataSize_framed k2 body2
      { (emitDeferrals s).1 with buf := (emitDeferrals s).1.buf ++ [0] } hname hb2
    have heq : (emitLiteral e s).1.buf =
        (updateBinDataSize
          { (emitDeferrals s).1 with buf := (emitDeferrals s).1.buf ++ [0] }).buf := by
      simp only [emitLiteral, if_pos he]
    rw [heq, hupd]
    exact ⟨_, _, rfl⟩
  · rw [emitLiteral_buf e s he, hX, List.append_assoc]
    exact framedBuf_append h _

theorem appendTry_framed {name : List Nat} (e : BElem) (s : Builder)
    (hname : 0 ∉ name) (h : FramedBuf name s.buf) :
    FramedBuf name (appendTry e s).1.buf := by
  simp only [appendTry]
  split
  · obtain ⟨X, hX⟩ := tryCopy_buf e s
    rw [hX]
    exact framedBuf_append h _
  · split
    · obtain ⟨X1, h1⟩ := tryCopy_buf e s
      obtain ⟨X2, h2⟩ := tryDelta_buf e (tryCopy e s).1
      rw [h2, h1, List.append_assoc]
      exact framedBuf_append h _
    · obtain ⟨X1, h1⟩ := tryCopy_buf e s
      have hfd : FramedBuf name (tryDelta e (tryCopy e s).1).1.buf := by
        obtain ⟨X2, h2⟩ := tryDelta_buf e (tryCopy e s).1
        rw [h2, h1, List.append_assoc]
        exact framedBuf_append h _
      exact emitLiteral_framed e _ hname hfd

theorem appendR_framed {name : List Nat} (i : Int) (e : BElem) (s : Builder)
    (hname : 0 ∉ name) (h : FramedBuf name s.buf) :
    FramedBuf name (appendR i e s).1.buf := by
  have hwf : valueOffset s ≤ s.buf.length := framedBuf_wf h hname
  simp only [appendR, maybeUndoDone_of_wf s hwf]
  split
  · obtain ⟨X, hX⟩ := emitSkips_buf i s
    rw [hX]
    exact framedBuf_append h _
  · have hsk : FramedBuf name (emitSkips i s).1.buf := by
      obtain ⟨X, hX⟩ := emitSkips_buf i s
      rw [hX]
      exact framedBuf_append h _
    have hat := appendTry_framed e (emitSkips i s).1 hname hsk
    split
    · exact hat
    · simpa using hat

theorem doneR_framed {name : List Nat} (s : Builder)
    (hname : 0 ∉ name) (h : FramedBuf name s.buf) :
    FramedBuf name (doneR s).1.buf := by
  unfold doneR
  split
  · exact h
  · exact appendR_framed s.index eooElem s hname h

theorem runOps_framed {name : List Nat} (ops : List BOp) (s : Builder)
    (hname : 0 ∉ name) (h : FramedBuf name s.buf) :
    FramedBuf name (runOpsR ops s).1.buf := by
  induction ops generalizing s with
  | nil => exact h
  | cons op rest ih =>
    cases op with
    | app i e =>
      simp only [runOpsR]
      have ha := appendR_framed i e s hname h
      rcases hr : appendR i e s with ⟨s1, ok, t⟩
      rw [hr] at ha
      cases ok with
      | true => simpa using ih s1 ha
      | false => simpa using ha
    | fin =>
      simp only [runOpsR]
      have hd := doneR_framed s hname h
      rcases hr : doneR s with ⟨s1, t⟩
      rw [hr] at hd
      exact ih s1 hd

theorem initBuilder_framed (name : List Nat) : FramedBuf name (initBuilder name).buf :=
  ⟨0, [], by simp [initBuilder]⟩

/-! ## What `done()` leaves in the size slot -/

theorem calculateDelta_eoo (b : BElem) : calculateDelta b eooElem = 0 := by
  unfold calculateDelta
  rw [if_pos]
  by_cases h : b.payload.length = 0
  · exact Or.inr (Or.inr (Or.inr h))
  · exact Or.inr (Or.inl (by simpa [eooElem] using h))

theorem tryCopy_eoo (s : Builder) : tryCopy eooElem s = (s, false, []) := by
  unfold tryCopy
  rw [if_pos]
  by_cases h : s.last.btype = 0
  · exact Or.inr h
  · exact Or.inl (fun hbe => h (hbe.1.symm ▸ rfl))

theorem tryDelta_eoo (s : Builder) : tryDelta eooElem s = (s, false, []) := by
  simp [tryDelta, calculateDelta_eoo]

theorem doneB_eq (s : Builder) (hwf : valueOffset s ≤ s.buf.length) :
    (doneB s).buf =
      (updateBinDataSize
        { (emitDeferrals s).1 with buf := (emitDeferrals s).1.buf ++ [0] }).buf := by
  have hnd : ¬ isDone s := by
    rintro ⟨-, hl⟩
    omega
  simp only [doneB, doneR, if_neg hnd, appendR, maybeUndoDone_of_wf s hwf,
    emitSkips_self, appendTry, tryCopy_eoo, tryDelta_eoo]
  simp only [Bool.false_eq_true, if_false]
  exact emitLiteral_eoo_buf s

/-- After `done()`, a framed builder's buffer stores exactly its body length
(which is at least 1, for the sentinel) in the `int32` size slot. -/
theorem doneB_framed_sized {name : List Nat} (s : Builder)
    (hname : 0 ∉ name) (h : FramedBuf name s.buf) :
    ∃ body : List Nat, 1 ≤ body.length ∧
      (doneB s).buf = binDataType :: (name ++ 0 :: (leBytesN 4 (body.length % 2 ^ 32)
        ++ binDataColumn :: body)) := by
  obtain ⟨X, hX⟩ := emitDeferrals_buf s
  obtain ⟨k, body0, hb0⟩ := h
  have hb2 : (emitDeferrals s).1.buf ++ [0]
      = binDataType :: (name ++ 0 :: (leBytesN 4 k
          ++ binDataColumn :: (body0 ++ (X ++ [0])))) := by
    rw [hX, hb0]
    simp
  refine ⟨body0 ++ (X ++ [0]), by
    simp only [List.length_append, List.length_cons, List.length_nil]
    omega, ?_⟩
  rw [doneB_eq s (framedBuf_wf ⟨k, body0, hb0⟩ hname)]
  exact updateBinDataSize_framed k _
    { (emitDeferrals s).1 with buf := (emitDeferrals s).1.buf ++ [0] } hname hb2

/-! ## Claim C9 — `isEmpty` -/

theorem toInt32_of_lt {n : Nat} (h : n % 2 ^ 32 < 2 ^ 31) :
    toInt32 n = (n % 2 ^ 32 : Nat) := by
  unfold toInt32
  rw [if_pos h]

theorem objsize_framed (name : List Nat) (k : Nat) (body : List Nat) (hname : 0 ∉ name) :
    objsize ⟨some (binDataType :: (name ++ 0 :: (leBytesN 4 k ++ binDataColumn :: body)))⟩ =
      7 + name.length + toInt32 k := by
  have hdrop1 : (binDataType :: (name ++ 0 :: (leBytesN 4 k ++ binDataColumn :: body))).drop 1
      = name ++ 0 :: (leBytesN 4 k ++ binDataColumn :: body) := rfl
  have hstr : strlenL (name ++ 0 :: (leBytesN 4 k ++ binDataColumn :: body)) = name.length :=
    strlenL_append_zero _ _ hname
  have hassoc : binDataType :: (name ++ 0 :: (leBytesN 4 k ++ binDataColumn :: body))
      = (binDataType :: name ++ [0]) ++ (leBytesN 4 k ++ binDataColumn :: body) := by simp
  have hlen1 : (binDataType :: name ++ [0]).length = name.length + 2 := by simp
  have hdrop2 : (binDataType :: (name ++ 0 :: (leBytesN 4 k ++ binDataColumn :: body))).drop
      (name.length + 2) = leBytesN 4 k ++ binDataColumn :: body := by
    rw [hassoc, ← hlen1, List.drop_left]
  have htake4 : (leBytesN 4 k ++ binDataColumn :: body).take 4 = leBytesN 4 k := by
    have h4 := List.take_left (leBytesN 4 k) (binDataColumn :: body)
    rwa [leBytesN_length] at h4
  have h2564 : (256 : Nat) ^ 4 = 2 ^ 32 := by norm_num
  have hti : toInt32 (k % 2 ^ 32) = toInt32 k := by
    unfold toInt32
    rw [Nat.mod_mod_of_dvd k dvd_rfl]
  simp only [objsize, hdrop1, hstr, hdrop2, readI32, htake4, leVal_leBytesN, h2564, hti]

/-- C9 (counterexample): on a builder with zero elements appended (field name
`"col"`), the finished column's body is exactly the one-byte `0x00` sentinel,
yet `isEmpty()` returns `false` — `isEmpty()` compares the *whole* `BinData`
element size (`objsize() <= 5`), and the framing alone (type byte, name, NUL,
`int32`, subtype) already exceeds 5 bytes.  (`isEmpty()` is `true` for the
default-constructed column, whose `_bin` is the 1-byte EOO element.) -/
theorem c9_claim_refuted :
    bodyOf (doneB (initBuilder colName)) = [0] ∧
    isEmpty (columnOf (doneB (initBuilder colName))) = false ∧
    isEmpty defaultColumn = true := by
  refine ⟨by decide, by decide, by decide⟩

/-- C9 (amended): `isEmpty()` returns `objsize() <= 5`, a test on the whole
`BinData` element rather than on the body.  Consequently every column produced
by a `Builder` — in particular one with zero elements appended, whose body is
exactly the sentinel byte — has `isEmpty() = false`, because its `objsize` is
`7 + name.length + bodyLength ≥ 8`; only the default-constructed column (EOO
`_bin`, `objsize = 1`) satisfies `isEmpty()`.  (The length hypothesis keeps
the stored `int32` size non-negative.) -/
theorem c9_isempty_builder_false (name : List Nat) (ops : List BOp)
    (hname : 0 ∉ name)
    (hlen : (doneB (runOps ops (initBuilder name))).buf.length
      < name.length + 7 + 2 ^ 31) :
    isEmpty (columnOf (doneB (runOps ops (initBuilder name)))) = false ∧
    isEmpty defaultColumn = true := by
  have hfr : FramedBuf name (runOps ops (initBuilder name)).buf :=
    runOps_framed ops (initBuilder name) hname (initBuilder_framed name)
  obtain ⟨body, hb1, hb⟩ :=
    doneB_framed_sized (runOps ops (initBuilder name)) hname hfr
  have hbuflen : (doneB (runOps ops (initBuilder name))).buf.length
      = name.length + 7 + body.length := by
    rw [hb]
    simp [leBytesN_length]
    omega
  have hblen : body.length < 2 ^ 31 := by omega
  have hmod : body.length % 2 ^ 32 = body.length := Nat.mod_eq_of_lt (by omega)
  have hobj : objsize (columnOf (doneB (runOps ops (initBuilder name))))
      = 7 + name.length + toInt32 (body.length % 2 ^ 32) := by
    show objsize ⟨some (doneB (runOps ops (initBuilder name))).buf⟩ = _
    rw [hb]
    exact objsize_framed name _ body hname
  have hpos : toInt32 (body.length % 2 ^ 32) = (body.length : Int) := by
    rw [hmod, toInt32_of_lt (by rw [Nat.mod_eq_of_lt (by omega)]; omega),
      Nat.mod_eq_of_lt (by omega)]
  refine ⟨?_, by decide⟩
  simp only [isEmpty, hobj, hpos]
  rw [decide_eq_false_iff_not]
  omega

/-- C9 witness: the amended theorem applied to field name `"col"` and zero
appends. -/
theorem c9_isempty_builder_false_witness :
    0 ∉ colName ∧
    (doneB (runOps [] (initBuilder colName))).buf.length
      < colName.length + 7 + 2 ^ 31 ∧
    (isEmpty (columnOf (doneB (runOps [] (initBuilder colName)))) = false ∧
      isEmpty defaultColumn = true) :=
  ⟨by decide, by decide, c9_isempty_builder_false colName [] (by decide) (by decide)⟩

/-! ## Claim C4 — stable materialisation

The iterator records each `applyDelta` call as a `(deltaIndex, base, delta)`
triple.  We show: (i) any two forward runs over the same column make
prefix-wise equal call sequences; (ii) the `k`-th call carries
`deltaIndex = k`; (iii) the store after a run is exactly the cells
materialised from the call sequence; (iv) re-running over the already-filled
shared store succeeds — every `memcmp` check inside `applyDelta` passes — and
leaves the store unchanged. -/

/-- The cell materialised from one recorded `applyDelta` call. -/
def matCellT (t : Triple) : Cell := matCell t.2.1 t.2.2

theorem applyDelta_push (S : Store) (base : BElem) (d : Nat)
    (hsz : base.payload.length ≤ 8) :
    applyDelta S S.length base d =
      some (S ++ [matCell base d], elemOfCell (matCell base d) base.payload.length) := by
  unfold applyDelta
  rw [if_neg (by omega), if_neg (by omega), if_pos rfl]
  simp [List.get?_eq_getElem?, List.getElem?_concat_length]

theorem applyDelta_check (S : Store) (k : Nat) (base : BElem) (d : Nat)
    (hk : k < S.length) (hc : S.get? k = some (matCell base d))
    (hsz : base.payload.length ≤ 8) :
    applyDelta S k base d = some (S, elemOfCell (matCell base d) base.payload.length) := by
  unfold applyDelta
  rw [if_neg (by omega), if_neg (by omega), if_neg (by omega)]
  rw [List.get?_eq_getElem?] at hc
  simp [hc]

theorem applyDelta_size_le {S : Store} {k : Nat} {base : BElem} {d : Nat} {r}
    (h : applyDelta S k base d = some r) : base.payload.length ≤ 8 := by
  unfold applyDelta at h
  by_cases hs : 8 < base.payload.length
  · rw [if_pos hs] at h
    exact absurd h (by simp)
  · omega

theorem applyStep_run {it : Iter} {v : List Triple} {it' : Iter} {S' : Store} {t : Triple}
    (hdi : it.deltaIndex = v.length)
    (h : applyStep it (List.map matCellT v) = some (it', S', t)) :
    t = (v.length, it.cur, it.delta) ∧
    S' = List.map matCellT (v ++ [t]) ∧
    it' = { it with cur := elemOfCell (matCell it.cur it.delta) it.cur.payload.length,
                    deltaIndex := v.length + 1 } ∧
    it.cur.payload.length ≤ 8 := by
  unfold applyStep at h
  rcases ha : applyDelta (List.map matCellT v) it.deltaIndex it.cur it.delta with _ | ⟨S2, e⟩
  · rw [ha] at h
    exact absurd h (by simp)
  · rw [ha] at h
    have hsz := applyDelta_size_le ha
    rw [hdi] at ha
    rw [show v.length = (List.map matCellT v).length from (List.length_map _ _).symm] at ha
    rw [applyDelta_push _ _ _ hsz] at ha
    obtain ⟨hS2, he⟩ : S2 = List.map matCellT v ++ [matCell it.cur it.delta] ∧
        e = elemOfCell (matCell it.cur it.delta) it.cur.payload.length := by
      have := ha
      simp at this
      exact ⟨this.1.symm, this.2.symm⟩
    obtain ⟨h1, h2, h3⟩ : it' = { it with cur := e, deltaIndex := it.deltaIndex + 1 } ∧
        S' = S2 ∧ t = (it.deltaIndex, it.cur, it.delta) := by
      have := h
      simp at this
      exact ⟨this.1.symm, this.2.1.symm, this.2.2.symm⟩
    subst h1 h2 h3 hS2 he
    refine ⟨by rw [hdi], ?_, by rw [hdi], hsz⟩
    simp [matCellT]

theorem applyStep_replay {it : Iter} {v w : List Triple}
    (hdi : it.deltaIndex = v.length) (hsz : it.cur.payload.length ≤ 8)
    (hw : (v ++ [(v.length, it.cur, it.delta)]) <+: w) :
    applyStep it (List.map matCellT w) =
      some ({ it with cur := elemOfCell (matCell it.cur it.delta) it.cur.payload.length,
                      deltaIndex := v.length + 1 },
            List.map matCellT w, (v.length, it.cur, it.delta)) := by
  have hlt : v.length < w.length := by
    have := hw.length_le
    simp at this
    omega
  have hget : w.get? v.length = some (v.length, it.cur, it.delta) := by
    have hg := hw.getElem (n := v.length) (by simpa using Nat.lt_succ_self v.length)
    rw [List.getElem_concat_length v _ v.length rfl] at hg
    rw [List.get?_eq_getElem?, List.getElem?_eq_getElem hlt, ← hg]
  have hgetm : (List.map matCellT w).get? v.length
      = some (matCell it.cur it.delta) := by
    rw [List.get?_map, hget]
    rfl
  unfold applyStep
  rw [hdi, applyDelta_check _ _ _ _ (by simpa using hlt) hgetm hsz]

/-- One `_nextInsn` dispatch, run over the store materialised from the triples
`v`: the store becomes the materialisation of `v ++ tr`, `_deltaIndex` tracks
the call count, calls are numbered consecutively, and the same dispatch over
any larger consistent store returns the same iterator and triples and leaves
that store unchanged. -/
theorem nextInsn_both (ts : Nat → Nat) (it : Iter) (v : List Triple)
    (hdi : it.deltaIndex = v.length) {it' : Iter} {S' : Store} {tr : List Triple} {k : Nat}
    (h : nextInsn ts it (List.map matCellT v) = some (it', S', tr, k)) :
    S' = List.map matCellT (v ++ tr) ∧ it'.deltaIndex = (v ++ tr).length ∧
    (∀ j (hj : j < tr.length), (tr.get ⟨j, hj⟩).1 = v.length + j) ∧
    (∀ w, (v ++ tr) <+: w →
      nextInsn ts it (List.map matCellT w) = some (it', List.map matCellT w, tr, k)) := by
  rcases hp : parseInsn it.insn 0 with _ | ⟨i, rest⟩
  · rw [nextInsn, hp] at h
    exact absurd h (by simp)
  · by_cases hk1 : i.kind ≤ 1
    · -- Literal0 / Literal1
      rcases hre : readElem ts (i.op :: rest) with _ | ⟨e, rest'⟩
      · rw [nextInsn, hp] at h
        simp only [if_pos hk1, hre] at h
        exact absurd h (by simp)
      · rw [nextInsn, hp] at h
        simp only [if_pos hk1, hre] at h
        simp only [show ¬((1 : Int) = 0 ∧ i.kind ≠ 2) from by omega, if_false,
          Option.some.injEq, Prod.mk.injEq] at h
        obtain ⟨h1, h2, h3, h4⟩ := h
        subst h1 h2 h3 h4
        refine ⟨by simp, by simpa using hdi, by simp, fun w hw => ?_⟩
        rw [nextInsn, hp]
        simp only [if_pos hk1, hre]
        simp only [show ¬((1 : Int) = 0 ∧ i.kind ≠ 2) from by omega, if_false]
    · by_cases hk2 : i.kind = 2
      · -- Skip
        rw [nextInsn, hp] at h
        simp only [if_neg hk1, if_pos hk2] at h
        simp only [show ¬(it.count = 0 ∧ i.kind ≠ 2) from by simp [hk2], if_false,
          Option.some.injEq, Prod.mk.injEq] at h
        obtain ⟨h1, h2, h3, h4⟩ := h
        subst h1 h2 h3 h4
        refine ⟨by simp, by simpa using hdi, by simp, fun w hw => ?_⟩
        rw [nextInsn, hp]
        simp only [if_neg hk1, if_pos hk2]
        simp only [show ¬(it.count = 0 ∧ i.kind ≠ 2) from by simp [hk2], if_false]
      · by_cases hk3 : i.kind = 3
        · -- Delta
          rw [nextInsn, hp] at h
          simp only [if_neg hk1, if_neg hk2, if_pos hk3] at h
          by_cases hc : toInt32 (Instr.negU64 i.countArg) = 0 ∧ i.kind ≠ 2
          · simp only [if_pos hc] at h
            exact absurd h (by simp)
          · simp only [if_neg hc, Option.some.injEq, Prod.mk.injEq] at h
            obtain ⟨h1, h2, h3, h4⟩ := h
            subst h1 h2 h3 h4
            refine ⟨by simp, by simpa using hdi, by simp, fun w hw => ?_⟩
            rw [nextInsn, hp]
            simp only [if_neg hk1, if_neg hk2, if_pos hk3]
            simp only [if_neg hc]
        · by_cases hk4 : i.kind = 4
          · -- Copy
            rw [nextInsn, hp] at h
            simp only [if_neg hk1, if_neg hk2, if_neg hk3, if_pos hk4] at h
            by_cases hc : toInt32 i.countArg = 0 ∧ i.kind ≠ 2
            · simp only [if_pos hc] at h
              exact absurd h (by simp)
            · simp only [if_neg hc, Option.some.injEq, Prod.mk.injEq] at h
              obtain ⟨h1, h2, h3, h4⟩ := h
              subst h1 h2 h3 h4
              refine ⟨by simp, by simpa using hdi, by simp, fun w hw => ?_⟩
              rw [nextInsn, hp]
              simp only [if_neg hk1, if_neg hk2, if_neg hk3, if_pos hk4]
              simp only [if_neg hc]
          · by_cases hk5 : i.kind = 5
            · -- SetNegDelta
              rw [nextInsn, hp] at h
              simp only [if_neg hk1, if_neg hk2, if_neg hk3, if_neg hk4, if_pos hk5] at h
              rcases ha : applyStep
                  { it with insn := rest, delta := Instr.negU64 i.deltaArg }
                  (List.map matCellT v) with _ | ⟨it2, S2, t⟩
              · rw [ha] at h
                exact absurd h (by simp)
              · rw [ha] at h
                simp only [show ¬((1 : Int) = 0 ∧ i.kind ≠ 2) from by omega, if_false,
                  Option.some.injEq, Prod.mk.injEq] at h
                obtain ⟨h1, h2, h3, h4⟩ := h
                subst h1 h2 h3 h4
                obtain ⟨ht, hS, hit, hsz⟩ := applyStep_run (by simpa using hdi) ha
                subst ht hS hit
                refine ⟨rfl, by simp, ?_, fun w hw => ?_⟩
                · intro j hj
                  match j, hj with
                  | 0, _ => simp
                · rw [nextInsn, hp]
                  simp only [if_neg hk1, if_neg hk2, if_neg hk3, if_neg hk4, if_pos hk5]
                  rw [applyStep_replay (by simpa using hdi) hsz hw]
                  simp only [show ¬((1 : Int) = 0 ∧ i.kind ≠ 2) from by omega, if_false]
            · by_cases hk6 : i.kind = 6
              · -- SetDelta
                rw [nextInsn, hp] at h
                simp only [if_neg hk1, if_neg hk2, if_neg hk3, if_neg hk4, if_neg hk5,
                  if_pos hk6] at h
                rcases ha : applyStep
                    { it with insn := rest, delta := i.deltaArg }
                    (List.map matCellT v) with _ | ⟨it2, S2, t⟩
                · rw [ha] at h
                  exact absurd h (by simp)
                · rw [ha] at h
                  simp only [show ¬((1 : Int) = 0 ∧ i.kind ≠ 2) from by omega, if_false,
                    Option.some.injEq, Prod.mk.injEq] at h
                  obtain ⟨h1, h2, h3, h4⟩ := h
                  subst h1 h2 h3 h4
                  obtain ⟨ht, hS, hit, hsz⟩ := applyStep_run (by simpa using hdi) ha
                  subst ht hS hit
                  refine ⟨rfl, by simp, ?_, fun w hw => ?_⟩
                  · intro j hj
                    match j, hj with
                    | 0, _ => simp
                  · rw [nextInsn, hp]
                    simp only [if_neg hk1, if_neg hk2, if_neg hk3, if_neg hk4, if_neg hk5,
                      if_pos hk6]
                    rw [applyStep_replay (by simpa using hdi) hsz hw]
                    simp only [show ¬((1 : Int) = 0 ∧ i.kind ≠ 2) from by omega, if_false]
              · rw [nextInsn, hp] at h
                simp only [if_neg hk1, if_neg hk2, if_neg hk3, if_neg hk4, if_neg hk5,
                  if_neg hk6] at h
                exact absurd h (by simp)

/-- The triples of a call sequence carry consecutive `deltaIndex` values
starting at `base`. -/
def Numbered (base : Nat) (tr : List Triple) : Prop :=
  ∀ j (hj : j < tr.length), (tr.get ⟨j, hj⟩).1 = base + j

theorem numbered_nil (base : Nat) : Numbered base [] :=
  fun _ hj => absurd hj (by simp)

theorem numbered_append {base : Nat} {tr1 tr2 : List Triple}
    (h1 : Numbered base tr1) (h2 : Numbered (base + tr1.length) tr2) :
    Numbered base (tr1 ++ tr2) := by
  induction tr1 generalizing base with
  | nil =>
    intro j hj
    have := h2 j (by simpa using hj)
    simpa using this
  | cons a tr1 ih =>
    have h1a : Numbered (base + 1) tr1 := by
      intro j hj
      have := h1 (j + 1) (by simpa using Nat.succ_lt_succ hj)
      simp only [List.get_cons_succ] at this
      rw [this]
      omega
    have h2a : Numbered (base + 1 + tr1.length) tr2 := by
      intro j hj
      have := h2 j hj
      rw [this]
      simp only [List.length_cons]
      omega
    intro j hj
    cases j with
    | zero =>
      have := h1 0 (by simp)
      simpa using this
    | succ j =>
      have hj2 : j < (tr1 ++ tr2).length := by
        simp only [List.length_append]
        simp only [List.length_cons, List.length_append] at hj
        omega
      have h3 := ih h1a h2a j hj2
      simp only [List.get_eq_getElem] at h3 ⊢
      simp only [List.cons_append, List.getElem_cons_succ]
      rw [h3]
      omega

theorem fetchLoop_both (ts : Nat → Nat) :
    ∀ (fuel : Nat) (it : Iter) (v : List Triple) {it' : Iter} {S' : Store} {tr : List Triple},
    it.deltaIndex = v.length →
    fetchLoop ts fuel it (List.map matCellT v) = some (it', S', tr) →
    S' = List.map matCellT (v ++ tr) ∧ it'.deltaIndex = (v ++ tr).length ∧
    Numbered v.length tr ∧
    (∀ w, (v ++ tr) <+: w →
      fetchLoop ts fuel it (List.map matCellT w) = some (it', List.map matCellT w, tr)) := by
  intro fuel
  induction fuel with
  | zero =>
    intro it v it' S' tr hdi h
    exact absurd h (by simp [fetchLoop])
  | succ fuel ih =>
    intro it v it' S' tr hdi h
    rw [fetchLoop] at h
    by_cases hc : it.count = 0
    · rw [if_pos hc] at h
      rcases hn : nextInsn ts it (List.map matCellT v) with _ | ⟨it1, S1, tr1, k⟩
      · rw [hn] at h
        exact absurd h (by simp)
      · rw [hn] at h
        simp only [] at h
        obtain ⟨hS1, hdi1, hnum1, hrepl1⟩ := nextInsn_both ts it v hdi hn
        subst hS1
        rcases hf : fetchLoop ts fuel it1 (List.map matCellT (v ++ tr1))
            with _ | ⟨it2, S2, tr2⟩
        · rw [hf] at h
          exact absurd h (by simp)
        · rw [hf] at h
          simp only [Option.some.injEq, Prod.mk.injEq] at h
          obtain ⟨h1, h2, h3⟩ := h
          subst h1 h2 h3
          obtain ⟨hS2, hdi2, hnum2, hrepl2⟩ :=
            ih it1 (v ++ tr1) (by simpa using hdi1) hf
          refine ⟨by rw [hS2]; simp, by rw [hdi2]; simp, ?_, fun w hw => ?_⟩
          · exact numbered_append hnum1 (by simpa using hnum2)
          · have hw1 : (v ++ tr1) <+: w := by
              refine List.IsPrefix.trans ?_ hw
              rw [← List.append_assoc]
              exact List.prefix_append _ _
            have hw2 : ((v ++ tr1) ++ tr2) <+: w := by
              rwa [List.append_assoc]
            rw [fetchLoop, if_pos hc, hrepl1 w hw1]
            simp only []
            rw [hrepl2 w hw2]
    · rw [if_neg hc] at h
      simp only [Option.some.injEq, Prod.mk.injEq] at h
      obtain ⟨h1, h2, h3⟩ := h
      subst h1 h2 h3
      refine ⟨by simp, by simpa using hdi, numbered_nil _, fun w hw => ?_⟩
      rw [fetchLoop, if_neg hc]

theorem iterNext_both (ts : Nat → Nat) (it : Iter) (v : List Triple)
    {it' : Iter} {S' : Store} {tr : List Triple}
    (hdi : it.deltaIndex = v.length)
    (h : iterNext ts it (List.map matCellT v) = some (it', S', tr)) :
    S' = List.map matCellT (v ++ tr) ∧ it'.deltaIndex = (v ++ tr).length ∧
    Numbered v.length tr ∧
    (∀ w, (v ++ tr) <+: w →
      iterNext ts it (List.map matCellT w) = some (it', List.map matCellT w, tr)) := by
  rw [iterNext] at h
  rcases hf : fetchLoop ts (it.insn.length + 1) it (List.map matCellT v)
      with _ | ⟨it1, S1, tr1⟩
  · rw [hf] at h
    exact absurd h (by simp)
  · rw [hf] at h
    simp only [] at h
    obtain ⟨hS1, hdi1, hnum1, hrepl1⟩ := fetchLoop_both ts _ it v hdi hf
    subst hS1
    by_cases hcnt : (0 : Int) < it1.count
    · rw [if_pos hcnt] at h
      simp only [Option.some.injEq, Prod.mk.injEq] at h
      obtain ⟨h1, h2, h3⟩ := h
      subst h1 h2 h3
      refine ⟨rfl, by simpa using hdi1, hnum1, fun w hw => ?_⟩
      rw [iterNext, hrepl1 w hw]
      simp only []
      rw [if_pos hcnt]
    · rw [if_neg hcnt] at h
      rcases ha : applyStep
          { it1 with
              count := it1.count + 1
              index := it1.index + 1 }
          (List.map matCellT (v ++ tr1)) with _ | ⟨it3, S3, t⟩
      · rw [ha] at h
        exact absurd h (by simp)
      · rw [ha] at h
        simp only [Option.some.injEq, Prod.mk.injEq] at h
        obtain ⟨h1, h2, h3⟩ := h
        subst h1 h2 h3
        obtain ⟨ht, hS3, hit3, hsz⟩ := applyStep_run (by simpa using hdi1) ha
        subst ht hS3 hit3
        refine ⟨by simp, by simp [Nat.add_assoc], ?_, fun w hw => ?_⟩
        · refine numbered_append hnum1 ?_
          intro j hj
          cases j with
          | zero => simp
          | succ j => exact absurd hj (by simp)
        · have hw1 : (v ++ tr1) <+: w := by
            refine List.IsPrefix.trans ?_ hw
            rw [← List.append_assoc]
            exact List.prefix_append _ _
          have hw2 : ((v ++ tr1)
              ++ [((v ++ tr1).length, it1.cur, it1.delta)]) <+: w := by
            simpa [List.append_assoc] using hw
          rw [iterNext, hrepl1 w hw1]
          simp only []
          rw [if_neg hcnt, applyStep_replay (by simpa using hdi1) hsz hw2]

theorem iterSteps_both (ts : Nat → Nat) :
    ∀ (n : Nat) (it : Iter) (v : List Triple) {it' : Iter} {S' : Store} {tr : List Triple},
    it.deltaIndex = v.length →
    iterSteps ts n it (List.map matCellT v) = some (it', S', tr) →
    S' = List.map matCellT (v ++ tr) ∧ it'.deltaIndex = (v ++ tr).length ∧
    Numbered v.length tr ∧
    (∀ w, (v ++ tr) <+: w →
      iterSteps ts n it (List.map matCellT w) = some (it', List.map matCellT w, tr)) := by
  intro n
  induction n with
  | zero =>
    intro it v it' S' tr hdi h
    simp only [iterSteps, Option.some.injEq, Prod.mk.injEq] at h
    obtain ⟨h1, h2, h3⟩ := h
    subst h1 h2 h3
    exact ⟨by simp, by simpa using hdi, numbered_nil _, fun w hw => by
      rw [iterSteps]⟩
  | succ n ih =>
    intro it v it' S' tr hdi h
    rw [iterSteps] at h
    rcases hs : iterSteps ts n it (List.map matCellT v) with _ | ⟨it1, S1, tr1⟩
    · rw [hs] at h
      exact absurd h (by simp)
    · rw [hs] at h
      simp only [] at h
      obtain ⟨hS1, hdi1, hnum1, hrepl1⟩ := ih it v hdi hs
      subst hS1
      rcases hn : iterNext ts it1 (List.map matCellT (v ++ tr1)) with _ | ⟨it2, S2, tr2⟩
      · rw [hn] at h
        exact absurd h (by simp)
      · rw [hn] at h
        simp only [Option.some.injEq, Prod.mk.injEq] at h
        obtain ⟨h1, h2, h3⟩ := h
        subst h1 h2 h3
        obtain ⟨hS2, hdi2, hnum2, hrepl2⟩ :=
          iterNext_both ts it1 (v ++ tr1) (by simpa using hdi1) hn
        refine ⟨by rw [hS2]; simp, by rw [hdi2]; simp, ?_, fun w hw => ?_⟩
        · exact numbered_append hnum1 (by simpa using hnum2)
        · have hw1 : (v ++ tr1) <+: w := by
            refine List.IsPrefix.trans ?_ hw
            rw [← List.append_assoc]
            exact List.prefix_append _ _
          have hw2 : ((v ++ tr1) ++ tr2) <+: w := by
            rwa [List.append_assoc]
          rw [iterSteps, hrepl1 w hw1]
          simp only []
          rw [hrepl2 w hw2]

theorem iterSteps_prefix (ts : Nat → Nat) :
    ∀ (m n : Nat), n ≤ m → ∀ (it : Iter) (s : Store)
    {r : Iter × Store × List Triple},
    iterSteps ts m it s = some r →
    ∃ rn : Iter × Store × List Triple,
      iterSteps ts n it s = some rn ∧ rn.2.2 <+: r.2.2 := by
  intro m
  induction m with
  | zero =>
    intro n hn it s r h
    rw [Nat.le_zero.1 hn]
    exact ⟨r, h, List.prefix_refl _⟩
  | succ m ih =>
    intro n hn it s r h
    by_cases he : n = m + 1
    · subst he
      exact ⟨r, h, List.prefix_refl _⟩
    · have hn' : n ≤ m := by omega
      rw [iterSteps] at h
      rcases hs : iterSteps ts m it s with _ | ⟨it1, S1, tr1⟩
      · rw [hs] at h
        exact absurd h (by simp)
      · rw [hs] at h
        simp only [] at h
        rcases hx : iterNext ts it1 S1 with _ | ⟨it2, S2, tr2⟩
        · rw [hx] at h
          exact absurd h (by simp)
        · rw [hx] at h
          simp only [Option.some.injEq] at h
          obtain ⟨rn, hrn, hpre⟩ := ih n hn' it s hs
          refine ⟨rn, hrn, List.IsPrefix.trans hpre ?_⟩
          rw [← h]
          exact List.prefix_append _ _

theorem mkBegin_deltaIndex {ts : Nat → Nat} {body : List Nat} {it0 : Iter}
    (h : mkBegin ts body = some it0) : it0.deltaIndex = 0 := by
  unfold mkBegin at h
  rcases hr : readElem ts body with _ | ⟨e, rest⟩
  · rw [hr] at h
    exact absurd h (by simp)
  · rw [hr] at h
    simp only [Option.some.injEq] at h
    rw [← h]

/-! ## Claim C4 — statement -/

/-- C4: forward iterators over the same column call `DeltaStore::applyDelta`
stably.  If one iterator advanced `m` steps from `begin()` over the fresh
(empty) store, recording the call triples `tr_m` and producing the store
`S_m`, then for every `n ≤ m`: a forward iterator advanced `n` steps makes
exactly a prefix `tr_n` of the same call sequence; the `k`-th call of any run
carries `deltaIndex = k`; the store is precisely the cells materialised from
the call sequence (each cell at index `k` is only ever derived from the one
triple `tr_m[k]`, hence byte-identically); and re-running `n` steps *over the
already-filled shared store* succeeds — every `memcmp` invariant inside
`applyDelta` passes — returning the same iterator, the same triples, and the
store unchanged. -/
theorem c4_stable_materialisation (ts : Nat → Nat) (body : List Nat) (n m : Nat)
    (it_m : Iter) (S_m : Store) (tr_m : List Triple)
    (hnm : n ≤ m) (hrun : iterRun ts body m = some (it_m, S_m, tr_m)) :
    ∃ it_n tr_n, iterRun ts body n = some (it_n, List.map matCellT tr_n, tr_n) ∧
      tr_n <+: tr_m ∧ Numbered 0 tr_n ∧ S_m = List.map matCellT tr_m ∧
      iterRunFrom ts body (List.map matCellT tr_m) n
        = some (it_n, List.map matCellT tr_m, tr_n) := by
  unfold iterRun iterRunFrom at hrun ⊢
  rcases hb : mkBegin ts body with _ | it0
  · rw [hb] at hrun
    exact absurd hrun (by simp)
  · rw [hb] at hrun
    have hdi0 : it0.deltaIndex = ([] : List Triple).length := by
      simpa using mkBegin_deltaIndex hb
    have hrun' : iterSteps ts m it0 (List.map matCellT []) = some (it_m, S_m, tr_m) := by
      simpa using hrun
    obtain ⟨hSm, hdim, hnumm, hreplm⟩ := iterSteps_both ts m it0 [] hdi0 hrun'
    obtain ⟨⟨it_n, S_n, tr_n⟩, hrn, hpre⟩ :=
      iterSteps_prefix ts m n hnm it0 (List.map matCellT []) hrun'
    have hrn' : iterSteps ts n it0 (List.map matCellT []) = some (it_n, S_n, tr_n) := hrn
    obtain ⟨hSn, hdin, hnumn, hrepln⟩ := iterSteps_both ts n it0 [] hdi0 hrn'
    have hpren : tr_n <+: tr_m := hpre
    refine ⟨it_n, tr_n, ?_, hpren, by simpa using hnumn, by simpa using hSm, ?_⟩
    · simp only []
      have hrn2 := hrn'
      rw [hSn] at hrn2
      simpa using hrn2
    · simp only []
      have := hrepln tr_m (by simpa using hpren)
      simpa using this

/-- A small column body for exercising C4: an int32 literal `10`, a
`SetDelta(1)` producing `11`, and a `Copy` producing `12`, then EOO.  Three
iterator steps make two `applyDelta` calls. -/
def c4Body : List Nat := [0x10, 0x00, 10, 0, 0, 0, 0x60, 0x31, 0x00]

/-- The iterator after three steps over `c4Body`. -/
def c4ItM : Iter := ⟨⟨0, []⟩, [], 0, 3, 2, 1⟩

/-- The delta store after three steps over `c4Body`. -/
def c4StoreM : Store :=
  [[16, 0, 11, 0, 0, 0, 0, 0, 0, 0], [16, 0, 12, 0, 0, 0, 0, 0, 0, 0]]

/-- The `applyDelta` call triples recorded over three steps of `c4Body`. -/
def c4TrM : List Triple := [(0, ⟨16, [10, 0, 0, 0]⟩, 1), (1, ⟨16, [11, 0, 0, 0]⟩, 1)]

theorem c4_stable_materialisation_witness :
    2 ≤ 3 ∧
    iterRun ts16 c4Body 3 = some (c4ItM, c4StoreM, c4TrM) ∧
    (∃ it_n tr_n, iterRun ts16 c4Body 2 = some (it_n, List.map matCellT tr_n, tr_n) ∧
      tr_n <+: c4TrM ∧ Numbered 0 tr_n ∧ c4StoreM = List.map matCellT c4TrM ∧
      iterRunFrom ts16 c4Body (List.map matCellT c4TrM) 2
        = some (it_n, List.map matCellT c4TrM, tr_n)) :=
  ⟨by decide, by decide,
   c4_stable_materialisation ts16 c4Body 2 3 c4ItM c4StoreM c4TrM (by decide) (by decide)⟩

end BsonColumn
